import Mathlib

/-!
Verification development for a multi-agent task-orchestration core.

The Python source is shallowly embedded: dictionaries become ordered
association lists (`List (String × α)`, insertion order preserved, updates
in place), Python sets become duplicate-free lists with insertion-order
iteration (`setAdd` appends only when absent), `heapq`-backed priority
queues are embedded by a faithful translation of CPython's `heappush` and
`heappop` (including `_siftdown` and `_siftup`), and exceptions become
`Option`/`Except` results.  Timestamps, logging and thread locks carry no
observable state relevant to the verified properties and are omitted;
opaque payloads (`Any` in the source) are embedded as `String`.
-/

namespace MAS

/-- Python `dict` lookup on an association list: first binding wins. -/
def alookup {α : Type} (m : List (String × α)) (k : String) : Option α :=
  match m with
  | [] => none
  | (k2, v) :: rest => if k2 = k then some v else alookup rest k

/-- Python `dict` assignment `m[k] = v`: update in place, append if new. -/
def aset {α : Type} (m : List (String × α)) (k : String) (v : α) :
    List (String × α) :=
  match m with
  | [] => [(k, v)]
  | (k2, v2) :: rest =>
      if k2 = k then (k, v) :: rest else (k2, v2) :: aset rest k v

/-- Python `del m[k]`: remove the binding for `k` (all of them). -/
def aerase {α : Type} (m : List (String × α)) (k : String) :
    List (String × α) :=
  match m with
  | [] => []
  | (k2, v2) :: rest =>
      if k2 = k then aerase rest k else (k2, v2) :: aerase rest k

/-- Update an existing binding with a function; no-op when the key is absent
(mirrors Python code paths guarded by `if key in dict`). -/
def aupdate {α : Type} (m : List (String × α)) (k : String) (f : α → α) :
    List (String × α) :=
  match m with
  | [] => []
  | (k2, v2) :: rest =>
      if k2 = k then (k2, f v2) :: rest else (k2, v2) :: aupdate rest k f

/-- Python `set.add`: append only when absent (insertion-order iteration). -/
def setAdd (s : List String) (x : String) : List String :=
  if x ∈ s then s else s ++ [x]

@[simp] theorem alookup_nil {α : Type} (k : String) :
    alookup ([] : List (String × α)) k = none := rfl

theorem alookup_cons {α : Type} (k2 k : String) (v : α) (rest) :
    alookup ((k2, v) :: rest) k =
      if k2 = k then some v else alookup rest k := rfl

theorem alookup_aset_self {α : Type} (m : List (String × α)) (k : String)
    (v : α) : alookup (aset m k v) k = some v := by
  induction m with
  | nil => simp [aset, alookup]
  | cons p rest ih =>
      obtain ⟨k2, v2⟩ := p
      by_cases h : k2 = k
      · simp [aset, h, alookup]
      · simp [aset, h, alookup_cons, ih]

theorem alookup_aset_ne {α : Type} (m : List (String × α)) (k k2 : String)
    (v : α) (h : k ≠ k2) : alookup (aset m k v) k2 = alookup m k2 := by
  induction m with
  | nil => simp [aset, alookup_cons, h]
  | cons p rest ih =>
      obtain ⟨k3, v3⟩ := p
      by_cases h3 : k3 = k
      · subst h3
        simp [aset, alookup_cons, h]
      · simp [aset, h3, alookup_cons, ih]

theorem alookup_aupdate_ne {α : Type} (m : List (String × α)) (k k2 : String)
    (f : α → α) (h : k ≠ k2) : alookup (aupdate m k f) k2 = alookup m k2 := by
  induction m with
  | nil => simp [aupdate]
  | cons p rest ih =>
      obtain ⟨k3, v3⟩ := p
      by_cases h3 : k3 = k
      · subst h3
        simp [aupdate, alookup_cons, h]
      · simp [aupdate, h3, alookup_cons, ih]

theorem alookup_aupdate_self {α : Type} (m : List (String × α)) (k : String)
    (f : α → α) :
    alookup (aupdate m k f) k = (alookup m k).map f := by
  induction m with
  | nil => simp [aupdate]
  | cons p rest ih =>
      obtain ⟨k2, v2⟩ := p
      by_cases h2 : k2 = k
      · simp [aupdate, h2, alookup_cons]
      · simp [aupdate, h2, alookup_cons, ih]

theorem mem_setAdd (s : List String) (x y : String) :
    y ∈ setAdd s x ↔ y ∈ s ∨ y = x := by
  unfold setAdd
  by_cases h : x ∈ s
  · simp only [if_pos h]
    constructor
    · exact Or.inl
    · rintro (hy | rfl)
      · exact hy
      · exact h
  · simp [if_neg h]

theorem setAdd_subset (s t : List String) (x : String) (hs : s ⊆ t)
    (hx : x ∈ t) : setAdd s x ⊆ t := by
  intro y hy
  rcases (mem_setAdd s x y).1 hy with h | rfl
  · exact hs h
  · exact hx

theorem nodup_setAdd (s : List String) (x : String) (h : s.Nodup) :
    (setAdd s x).Nodup := by
  unfold setAdd
  by_cases hx : x ∈ s
  · simpa [hx]
  · simp [hx, List.nodup_append, h]

/-! ## Dependency graph (`src/core/dependency_graph.py`)

`self.graph` maps a node to the set of nodes it depends on, `self.reverse_graph`
to the set of its dependents, `self.nodes` is the node set.  Adjacency sets are
embedded as duplicate-free lists in insertion order. -/

structure DependencyGraph where
  graph : List (String × List String)
  reverse_graph : List (String × List String)
  nodes : List String
deriving Repr, DecidableEq

def emptyGraph : DependencyGraph := ⟨[], [], []⟩

/-- `self.graph.get(current, set())`. -/
def adjOf (gl : List (String × List String)) (n : String) : List String :=
  (alookup gl n).getD []

/-- `DependencyGraph.add_node`: add to the node set, ensure (empty) adjacency
entries exist in both maps. -/
def add_node (g : DependencyGraph) (node_id : String) : DependencyGraph :=
  { nodes := setAdd g.nodes node_id
    graph := if (alookup g.graph node_id).isSome then g.graph
             else aset g.graph node_id []
    reverse_graph := if (alookup g.reverse_graph node_id).isSome then
               g.reverse_graph
             else aset g.reverse_graph node_id [] }

/-- One iteration budget for the worklist in `_would_create_cycle`: queue
length plus the adjacency sizes of all not-yet-visited keys.  It falls by at
least one per loop iteration, so it bounds the number of iterations. -/
def edgeBudget (gl : List (String × List String)) (visited : List String) :
    Nat :=
  (((gl.map Prod.fst).filter (fun k => k ∉ visited)).map
    (fun k => (adjOf gl k).length)).sum

/-- The BFS worklist loop of `DependencyGraph._would_create_cycle`: pop the
queue from the left, return `true` on reaching `from_node`, skip visited
nodes, otherwise mark visited and append the current node's dependencies. -/
def bfsReaches (gl : List (String × List String)) (from_node : String) :
    Nat → List String → List String → Bool
  | 0, _, _ => false
  | _ + 1, [], _ => false
  | fuel + 1, current :: rest, visited =>
      if current = from_node then true
      else if current ∈ visited then bfsReaches gl from_node fuel rest visited
      else bfsReaches gl from_node fuel (rest ++ adjOf gl current)
        (current :: visited)

/-- `DependencyGraph._would_create_cycle(from_node, to_node)`: BFS from
`to_node` along dependency edges looking for `from_node`. -/
def would_create_cycle (g : DependencyGraph) (from_node to_node : String) :
    Bool :=
  bfsReaches g.graph from_node (1 + edgeBudget g.graph []) [to_node] []

/-- `DependencyGraph.add_dependency(node_id, depends_on)`.  The Python method
mutates `self` through `add_node` before the cycle check, so the state in
which `CircularDependencyError` is raised is returned alongside the error. -/
def add_dependency (g : DependencyGraph) (node_id depends_on : String) :
    Option String × DependencyGraph :=
  let g1 := add_node (add_node g node_id) depends_on
  if would_create_cycle g1 node_id depends_on then
    (some "would create a cycle", g1)
  else
    (none,
      { g1 with
        graph := aset g1.graph node_id (setAdd (adjOf g1.graph node_id) depends_on)
        reverse_graph := aset g1.reverse_graph depends_on
          (setAdd (adjOf g1.reverse_graph depends_on) node_id) })

/-- Dependents as stored in `self.reverse_graph` (with default `set()`). -/
def radjOf (g : DependencyGraph) (n : String) : List String :=
  (alookup g.reverse_graph n).getD []

/-- Reachability along dependency edges: `Reaches gl a b` holds when `b` can
be reached from `a` by following zero or more `graph` edges.  This is the
spec-level notion that `_would_create_cycle` decides. -/
inductive ReachesL (gl : List (String × List String)) : String → String → Prop
  | refl (a : String) : ReachesL gl a a
  | step {a b c : String} : b ∈ adjOf gl a → ReachesL gl b c → ReachesL gl a c

theorem ReachesL.trans {gl : List (String × List String)} {a b c : String}
    (h1 : ReachesL gl a b) (h2 : ReachesL gl b c) : ReachesL gl a c := by
  induction h1 with
  | refl => exact h2
  | step hedge _ ih => exact ReachesL.step hedge (ih h2)

theorem ReachesL.congr {gl1 gl2 : List (String × List String)} {a b : String}
    (hadj : ∀ z, adjOf gl1 z = adjOf gl2 z) (h : ReachesL gl1 a b) :
    ReachesL gl2 a b := by
  induction h with
  | refl => exact ReachesL.refl _
  | step hedge _ ih => exact ReachesL.step (hadj _ ▸ hedge) ih

theorem alookup_eq_none {α : Type} (m : List (String × α)) (k : String)
    (h : k ∉ m.map Prod.fst) : alookup m k = none := by
  induction m with
  | nil => rfl
  | cons p rest ih =>
      obtain ⟨k2, v2⟩ := p
      simp only [List.map_cons, List.mem_cons] at h
      push_neg at h
      simp [alookup_cons, Ne.symm h.1, ih h.2]

/-- Adjacency-size sum over the keys not yet visited. -/
def sumOver (f : String → Nat) (keys visited : List String) : Nat :=
  ((keys.filter (fun k => k ∉ visited)).map f).sum

theorem sumOver_cons_mem (f : String → Nat) (k : String) (rest visited :
    List String) (h : k ∈ visited) :
    sumOver f (k :: rest) visited = sumOver f rest visited := by
  simp [sumOver, List.filter_cons, h]

theorem sumOver_cons_not_mem (f : String → Nat) (k : String) (rest visited :
    List String) (h : k ∉ visited) :
    sumOver f (k :: rest) visited = f k + sumOver f rest visited := by
  simp [sumOver, List.filter_cons, h]

theorem sumOver_mono (f : String → Nat) (keys : List String) :
    ∀ visited visited2 : List String, visited ⊆ visited2 →
      sumOver f keys visited2 ≤ sumOver f keys visited := by
  induction keys with
  | nil => intro _ _ _; simp [sumOver]
  | cons k rest ih =>
      intro visited visited2 hsub
      have hrec := ih visited visited2 hsub
      by_cases h2 : k ∈ visited2
      · by_cases h1 : k ∈ visited
        · rw [sumOver_cons_mem f k rest visited2 h2,
            sumOver_cons_mem f k rest visited h1]
          exact hrec
        · rw [sumOver_cons_mem f k rest visited2 h2,
            sumOver_cons_not_mem f k rest visited h1]
          omega
      · have h1 : k ∉ visited := fun hk => h2 (hsub hk)
        rw [sumOver_cons_not_mem f k rest visited2 h2,
          sumOver_cons_not_mem f k rest visited h1]
        omega

theorem sumOver_spend (f : String → Nat) (keys : List String) (c : String) :
    ∀ visited : List String, c ∈ keys → c ∉ visited →
      f c + sumOver f keys (c :: visited) ≤ sumOver f keys visited := by
  induction keys with
  | nil => intro _ h _; cases h
  | cons k rest ih =>
      intro visited hc hcv
      have hmono : sumOver f rest (c :: visited) ≤ sumOver f rest visited :=
        sumOver_mono f rest visited (c :: visited)
          (fun x hx => List.mem_cons_of_mem _ hx)
      rcases List.mem_cons.1 hc with rfl | hc2
      · rw [sumOver_cons_mem f c rest (c :: visited)
            (List.mem_cons_self c visited),
          sumOver_cons_not_mem f c rest visited hcv]
        omega
      · by_cases hk : k ∈ visited
        · rw [sumOver_cons_mem f k rest (c :: visited)
              (List.mem_cons_of_mem _ hk),
            sumOver_cons_mem f k rest visited hk]
          exact ih visited hc2 hcv
        · by_cases hkc : k = c
          · subst hkc
            rw [sumOver_cons_mem f k rest (k :: visited)
                (List.mem_cons_self k visited),
              sumOver_cons_not_mem f k rest visited hk]
            omega
          · have hk2 : k ∉ c :: visited := by
              simp [List.mem_cons, hk, hkc]
            rw [sumOver_cons_not_mem f k rest (c :: visited) hk2,
              sumOver_cons_not_mem f k rest visited hk]
            have := ih visited hc2 hcv
            omega

/-- If a visited node reaches the target then some unvisited queue element
does, as long as every visited node's neighbours are in the queue or
visited and the target itself is unvisited. -/
theorem bfs_escape (gl : List (String × List String)) (from_node : String)
    (queue visited : List String)
    (hinv : ∀ v ∈ visited, ∀ u ∈ adjOf gl v, u ∈ queue ∨ u ∈ visited)
    (hfrom : from_node ∉ visited) :
    ∀ {v : String}, ReachesL gl v from_node → v ∈ visited →
      ∃ z ∈ queue, z ∉ visited ∧ ReachesL gl z from_node := by
  intro v hreach
  revert hfrom
  induction hreach with
  | refl a => intro hfrom ha; exact absurd ha hfrom
  | @step a b _ hedge htail ih =>
      intro hfrom ha
      by_cases hb : b ∈ visited
      · exact ih hfrom hb
      · rcases hinv a ha b hedge with hq | hv
        · exact ⟨b, hq, hb, htail⟩
        · exact absurd hv hb

/-- Completeness of the `_would_create_cycle` worklist search: with the
invariant that visited nodes' neighbours stay in the worklist, enough fuel,
and some queue element reaching `from_node`, the search returns `true`. -/
theorem bfsReaches_complete (gl : List (String × List String))
    (from_node : String) :
    ∀ (fuel : Nat) (queue visited : List String),
      (∀ v ∈ visited, ∀ u ∈ adjOf gl v, u ∈ queue ∨ u ∈ visited) →
      from_node ∉ visited →
      (∃ w ∈ queue, ReachesL gl w from_node) →
      queue.length + sumOver (fun k => (adjOf gl k).length)
        (gl.map Prod.fst) visited ≤ fuel →
      bfsReaches gl from_node fuel queue visited = true := by
  intro fuel
  induction fuel with
  | zero =>
      intro queue visited _ _ hwit hbud
      obtain ⟨w, hw, _⟩ := hwit
      have : 0 < queue.length := List.length_pos.2 (List.ne_nil_of_mem hw)
      omega
  | succ fuel ih =>
      intro queue visited hinv hfrom hwit hbud
      match queue with
      | [] =>
          obtain ⟨w, hw, _⟩ := hwit
          cases hw
      | c :: rest =>
          by_cases hc : c = from_node
          · simp [bfsReaches, hc]
          · by_cases hcv : c ∈ visited
            · have hinv2 : ∀ v ∈ visited, ∀ u ∈ adjOf gl v,
                  u ∈ rest ∨ u ∈ visited := by
                intro v hv u hu
                rcases hinv v hv u hu with hq | hvis
                · rcases List.mem_cons.1 hq with rfl | hr
                  · exact Or.inr hcv
                  · exact Or.inl hr
                · exact Or.inr hvis
              have hwit2 : ∃ w ∈ rest, ReachesL gl w from_node := by
                obtain ⟨w, hw, hwre⟩ := hwit
                rcases List.mem_cons.1 hw with rfl | hr
                · obtain ⟨z, hz, hznv, hzre⟩ :=
                    bfs_escape gl from_node (w :: rest) visited hinv hfrom
                      hwre hcv
                  rcases List.mem_cons.1 hz with rfl | hzr
                  · exact absurd hcv hznv
                  · exact ⟨z, hzr, hzre⟩
                · exact ⟨w, hr, hwre⟩
              have : bfsReaches gl from_node (fuel + 1) (c :: rest) visited =
                  bfsReaches gl from_node fuel rest visited := by
                simp [bfsReaches, hc, hcv]
              rw [this]
              apply ih rest visited hinv2 hfrom hwit2
              simp only [List.length_cons] at hbud
              omega
            · have hinv2 : ∀ v ∈ c :: visited, ∀ u ∈ adjOf gl v,
                  u ∈ rest ++ adjOf gl c ∨ u ∈ c :: visited := by
                intro v hv u hu
                rcases List.mem_cons.1 hv with rfl | hvv
                · exact Or.inl (List.mem_append_right _ hu)
                · rcases hinv v hvv u hu with hq | hvis
                  · rcases List.mem_cons.1 hq with rfl | hr
                    · exact Or.inr (List.mem_cons_self _ _)
                    · exact Or.inl (List.mem_append_left _ hr)
                  · exact Or.inr (List.mem_cons_of_mem _ hvis)
              have hfrom2 : from_node ∉ c :: visited := by
                intro h
                rcases List.mem_cons.1 h with h | h
                · exact hc h.symm
                · exact hfrom h
              have hwit2 : ∃ w ∈ rest ++ adjOf gl c,
                  ReachesL gl w from_node := by
                obtain ⟨w, hw, hwre⟩ := hwit
                rcases List.mem_cons.1 hw with rfl | hr
                · cases hwre with
                  | refl => exact absurd rfl hc
                  | step hedge htail =>
                      exact ⟨_, List.mem_append_right _ hedge, htail⟩
                · exact ⟨w, List.mem_append_left _ hr, hwre⟩
              have hbud2 : (rest ++ adjOf gl c).length +
                  sumOver (fun k => (adjOf gl k).length) (gl.map Prod.fst)
                    (c :: visited) ≤ fuel := by
                by_cases hck : c ∈ gl.map Prod.fst
                · have hsp : (adjOf gl c).length +
                      sumOver (fun k => (adjOf gl k).length)
                        (gl.map Prod.fst) (c :: visited) ≤
                      sumOver (fun k => (adjOf gl k).length)
                        (gl.map Prod.fst) visited :=
                    sumOver_spend (fun k => (adjOf gl k).length)
                      (gl.map Prod.fst) c visited hck hcv
                  simp only [List.length_append, List.length_cons] at hbud ⊢
                  omega
                · have hadjc : adjOf gl c = [] := by
                    simp [adjOf, alookup_eq_none gl c hck]
                  have := sumOver_mono (fun k => (adjOf gl k).length)
                    (gl.map Prod.fst) visited (c :: visited)
                    (fun x hx => List.mem_cons_of_mem _ hx)
                  simp only [hadjc, List.append_nil, List.length_cons] at hbud ⊢
                  omega
              have : bfsReaches gl from_node (fuel + 1) (c :: rest) visited =
                  bfsReaches gl from_node fuel (rest ++ adjOf gl c)
                    (c :: visited) := by
                simp [bfsReaches, hc, hcv]
              rw [this]
              exact ih _ _ hinv2 hfrom2 hwit2 hbud2

theorem would_create_cycle_complete (g : DependencyGraph) (n d : String)
    (h : ReachesL g.graph d n) : would_create_cycle g n d = true := by
  unfold would_create_cycle edgeBudget
  apply bfsReaches_complete g.graph n (1 + _) [d] []
  · intro v hv; cases hv
  · intro hv; cases hv
  · exact ⟨d, List.mem_singleton_self d, h⟩
  · simp [sumOver, edgeBudget]

theorem adjOf_add_node_graph (g : DependencyGraph) (x y : String) :
    adjOf (add_node g x).graph y = adjOf g.graph y := by
  unfold add_node adjOf
  by_cases h : (alookup g.graph x).isSome
  · simp [h]
  · by_cases hxy : x = y
    · subst hxy
      simp only [h, Bool.false_eq_true, if_false, alookup_aset_self]
      cases hl : alookup g.graph x
      · rfl
      · rw [hl] at h; simp at h
    · simp [h, alookup_aset_ne g.graph x y [] hxy]

theorem adjOf_add_node_reverse (g : DependencyGraph) (x y : String) :
    adjOf (add_node g x).reverse_graph y = adjOf g.reverse_graph y := by
  unfold add_node adjOf
  by_cases h : (alookup g.reverse_graph x).isSome
  · simp [h]
  · by_cases hxy : x = y
    · subst hxy
      simp only [h, Bool.false_eq_true, if_false, alookup_aset_self]
      cases hl : alookup g.reverse_graph x
      · rfl
      · rw [hl] at h; simp at h
    · simp [h, alookup_aset_ne g.reverse_graph x y [] hxy]

theorem add_node_eq_self (g : DependencyGraph) (x : String)
    (hx : x ∈ g.nodes) (hg : (alookup g.graph x).isSome)
    (hr : (alookup g.reverse_graph x).isSome) : add_node g x = g := by
  unfold add_node
  cases g
  simp_all [setAdd]

/-- Key structural fact behind C3: when the cycle check fires,
`add_dependency` returns an error together with the state already mutated by
the two `add_node` calls — and by nothing else. -/
theorem add_dependency_of_reaches (g : DependencyGraph) (n d : String)
    (h : ReachesL g.graph d n) :
    add_dependency g n d = (some "would create a cycle",
      add_node (add_node g n) d) := by
  have hadj : ∀ z, adjOf g.graph z =
      adjOf (add_node (add_node g n) d).graph z := by
    intro z
    rw [adjOf_add_node_graph, adjOf_add_node_graph]
  have h2 : ReachesL (add_node (add_node g n) d).graph d n :=
    ReachesL.congr hadj h
  have hc := would_create_cycle_complete (add_node (add_node g n) d) n d h2
  unfold add_dependency
  simp [hc]

/-! Kahn's algorithm (`DependencyGraph.topological_sort`).  The Python
`in_degree` of a node is the size of its dependency set; ready nodes are
processed from a FIFO worklist and each processed node decrements the
counter of all its dependents, enqueueing those that reach zero. -/

/-- Inner `for dependent in self.reverse_graph[node]` loop body: decrement
each dependent's counter and collect (in iteration order) those that hit
zero. -/
def kahnFold (cnt : List (String × Int)) :
    List String → List (String × Int) × List String
  | [] => (cnt, [])
  | y :: rest =>
      let cnt2 := aupdate cnt y (fun v => v - 1)
      let p := kahnFold cnt2 rest
      (p.1, (if (alookup cnt2 y).getD 1 = 0 then [y] else []) ++ p.2)

/-- The `while queue` loop of `topological_sort`, with an explicit fuel that
is always sufficient (every node is enqueued at most twice across a run). -/
def kahnLoop (g : DependencyGraph) :
    Nat → List (String × Int) → List String → List String → List String
  | 0, _, _, result => result
  | fuel + 1, cnt, queue, result =>
      match queue with
      | [] => result
      | node :: rest =>
          let p := kahnFold cnt (radjOf g node)
          kahnLoop g fuel p.1 (rest ++ p.2) (result ++ [node])

/-- `DependencyGraph.topological_sort`: Kahn's algorithm; raises
`CircularDependencyError` when not all nodes were placed. -/
def topological_sort (g : DependencyGraph) : Except String (List String) :=
  let cnt0 := g.nodes.map (fun n => (n, ((adjOf g.graph n).length : Int)))
  let queue0 := g.nodes.filter (fun n => (adjOf g.graph n).length = 0)
  let result := kahnLoop g (2 * g.nodes.length + 1) cnt0 queue0 []
  if result.length = g.nodes.length then Except.ok result
  else Except.error "Graph contains a cycle"

/-! ## Task queue (`src/core/task_queue.py`)

`Task` is a `@dataclass(order=True)` in which only `priority` carries
`compare=True`, so the heap order compares priorities alone.  The queue
itself is a `queue.PriorityQueue`, i.e. a list managed by CPython `heapq`;
`heappush`/`heappop` below are literal translations of `heapq.heappush`,
`heapq.heappop`, `heapq._siftdown` and `heapq._siftup` (the bubble-to-leaf
variant), since the order among equal priorities depends on them.
`datetime` stamps are omitted and the `uuid4` task id is passed as an
argument. -/

inductive TaskStatus where
  | pending
  | in_progress
  | completed
  | failed
  | cancelled
deriving Repr, DecidableEq, Inhabited

structure Task where
  priority : Int
  task_id : String
  agent_type : String
  action : String
  input_data : String
  dependencies : List String
  metadata : List (String × String)
  status : TaskStatus
  result : Option String
  error : Option String
deriving Repr, DecidableEq, Inhabited

/-- TaskPriority enum values (lower number = higher priority). -/
def TaskPriority.LOW : Int := 3

def TaskPriority.MEDIUM : Int := 2

def TaskPriority.HIGH : Int := 1

def TaskPriority.CRITICAL : Int := 0

/-- The dataclass comparison: tuples of `compare=True` fields, i.e. just
`priority`. -/
def taskLT (a b : Task) : Bool := decide (a.priority < b.priority)

def Task.start (t : Task) : Task := { t with status := TaskStatus.in_progress }

def Task.complete (t : Task) (res : String) : Task :=
  { t with status := TaskStatus.completed, result := some res }

def Task.fail (t : Task) (err : String) : Task :=
  { t with status := TaskStatus.failed, error := some err }

def Task.cancel (t : Task) : Task := { t with status := TaskStatus.cancelled }

/-- `heapq._siftdown(heap, startpos, pos)` with `newitem = heap[pos]` taken
as an argument: bubble `newitem` towards the root while it is strictly
smaller than its parent.  `fuel = pos` always suffices since the position
strictly decreases. -/
def siftdownLoop : List Task → Nat → Nat → Task → Nat → List Task
  | heap, _, pos, newitem, 0 => heap.set pos newitem
  | heap, startpos, pos, newitem, fuel + 1 =>
      if startpos < pos then
        let parentpos := (pos - 1) / 2
        let parent := heap.getD parentpos default
        if taskLT newitem parent then
          siftdownLoop (heap.set pos parent) startpos parentpos newitem fuel
        else heap.set pos newitem
      else heap.set pos newitem

/-- The child-selection loop of `heapq._siftup(heap, pos)`: move the smaller
child up until a leaf is reached, returning the heap and the leaf position.
`fuel = heap.length` always suffices since the position strictly
increases. -/
def siftupLoop : List Task → Nat → Nat → List Task × Nat
  | heap, pos, 0 => (heap, pos)
  | heap, pos, fuel + 1 =>
      let endpos := heap.length
      let childpos := 2 * pos + 1
      if childpos < endpos then
        let rightpos := childpos + 1
        let cp := if rightpos < endpos ∧
            ¬ taskLT (heap.getD childpos default) (heap.getD rightpos default)
          then rightpos else childpos
        siftupLoop (heap.set pos (heap.getD cp default)) cp fuel
      else (heap, pos)

/-- `heapq._siftup(heap, pos)` with `newitem = heap[pos]` passed in: move
the hole to a leaf, drop `newitem` there, then `_siftdown` it back up. -/
def pySiftup (heap : List Task) (pos : Nat) (newitem : Task) : List Task :=
  let hp := siftupLoop heap pos heap.length
  siftdownLoop (hp.1.set hp.2 newitem) pos hp.2 newitem hp.2

/-- `heapq.heappush`. -/
def heappush (heap : List Task) (item : Task) : List Task :=
  siftdownLoop (heap ++ [item]) 0 heap.length item heap.length

/-- `heapq.heappop`: returns the popped root and the remaining heap
(`none` on an empty heap, where `queue.PriorityQueue.get` times out). -/
def heappop (heap : List Task) : Option Task × List Task :=
  match heap.getLast? with
  | none => (none, heap)
  | some lastelt =>
      let rest := heap.dropLast
      if rest.isEmpty then (some lastelt, rest)
      else
        let returnitem := rest.getD 0 default
        (some returnitem, pySiftup (rest.set 0 lastelt) 0 lastelt)

structure TaskQueue where
  queue : List Task
  tasks : List (String × Task)
  pending : List String
  in_progress : List String
  completed : List String
  failed : List String
  stats_total : Nat
  stats_completed : Nat
  stats_failed : Nat
  stats_cancelled : Nat
deriving Repr, DecidableEq

def emptyTaskQueue : TaskQueue := ⟨[], [], [], [], [], [], 0, 0, 0, 0⟩

/-- `TaskQueue._can_execute`: vacuously true without dependencies, otherwise
every dependency id must be in the completed set. -/
def canExec (completedSet : List String) (t : Task) : Bool :=
  t.dependencies.all (fun dep => decide (dep ∈ completedSet))

/-- `TaskQueue.add_task`: record the task, mark it pending, and push it onto
the priority queue only when its dependencies are already satisfied. -/
def add_task (q : TaskQueue) (task_id agent_type action input_data : String)
    (priority : Int) (dependencies : List String)
    (metadata : List (String × String)) : Task × TaskQueue :=
  let task : Task :=
    { priority := priority, task_id := task_id, agent_type := agent_type,
      action := action, input_data := input_data,
      dependencies := dependencies, metadata := metadata,
      status := TaskStatus.pending, result := none, error := none }
  let q1 := { q with tasks := aset q.tasks task_id task,
                     pending := setAdd q.pending task_id,
                     stats_total := q.stats_total + 1 }
  if canExec q1.completed task then
    (task, { q1 with queue := heappush q1.queue task })
  else (task, q1)

/-- `TaskQueue.get_next_task`: pop the heap root; the popped object is the
same object as the `tasks` dict entry, so starting it updates both.  An
empty heap models the `Empty` timeout (`None`). -/
def get_next_task (q : TaskQueue) : Option Task × TaskQueue :=
  match heappop q.queue with
  | (none, _) => (none, q)
  | (some e, rest) =>
      let t := (match alookup q.tasks e.task_id with
                | some cur => cur
                | none => e).start
      (some t,
        { q with queue := rest,
                 tasks := aupdate q.tasks e.task_id (fun _ => t),
                 pending := q.pending.erase e.task_id,
                 in_progress := setAdd q.in_progress e.task_id })

/-- `TaskQueue._check_dependent_tasks`: walk the pending ids and push every
task that mentions the completed id and has all dependencies satisfied. -/
def checkDependentsFold (tasks : List (String × Task))
    (completedSet : List String) (completed_task_id : String) :
    List String → List Task → List Task
  | [], heap => heap
  | id :: rest, heap =>
      match alookup tasks id with
      | none => checkDependentsFold tasks completedSet completed_task_id rest heap
      | some task =>
          if completed_task_id ∈ task.dependencies ∧
              canExec completedSet task then
            checkDependentsFold tasks completedSet completed_task_id rest
              (heappush heap task)
          else
            checkDependentsFold tasks completedSet completed_task_id rest heap

/-- `TaskQueue.complete_task`: unknown ids are ignored with a warning;
otherwise mark completed, update the status sets and statistics, and
re-evaluate the pending tasks. -/
def complete_task (q : TaskQueue) (task_id res : String) : TaskQueue :=
  match alookup q.tasks task_id with
  | none => q
  | some task =>
      let t2 := task.complete res
      let q1 := { q with tasks := aupdate q.tasks task_id (fun _ => t2),
                         in_progress := q.in_progress.erase task_id,
                         completed := setAdd q.completed task_id,
                         stats_completed := q.stats_completed + 1 }
      { q1 with queue := (checkDependentsFold q1.tasks q1.completed task_id
          q1.pending q1.queue) }

/-- `TaskQueue.fail_task`. -/
def fail_task (q : TaskQueue) (task_id err : String) : TaskQueue :=
  match alookup q.tasks task_id with
  | none => q
  | some task =>
      { q with tasks := aupdate q.tasks task_id (fun _ => task.fail err),
               in_progress := q.in_progress.erase task_id,
               failed := setAdd q.failed task_id,
               stats_failed := q.stats_failed + 1 }

/-- `TaskQueue.cancel_task`. -/
def cancel_task (q : TaskQueue) (task_id : String) : TaskQueue :=
  match alookup q.tasks task_id with
  | none => q
  | some task =>
      { q with tasks := aupdate q.tasks task_id (fun _ => task.cancel),
               pending := q.pending.erase task_id,
               in_progress := q.in_progress.erase task_id,
               stats_cancelled := q.stats_cancelled + 1 }

/-- `TaskQueue.clear`: drain the heap and clear every index (statistics are
kept). -/
def clearQueue (q : TaskQueue) : TaskQueue :=
  { q with queue := [], tasks := [], pending := [], in_progress := [],
           completed := [], failed := [] }

/-! ## Agent registry (`src/core/agent_registry.py`) -/

structure AgentInfo where
  agent_id : String
  agent_type : String
  name : String
  capabilities : List String
  status : String
  workload : Int
  total_tasks_completed : Nat
  total_tasks_failed : Nat
deriving Repr, DecidableEq, Inhabited

/-- `AgentInfo.increment_workload`: bump the counter and mark busy. -/
def AgentInfo.increment_workload (a : AgentInfo) : AgentInfo :=
  { a with workload := a.workload + 1, status := "busy" }

/-- `AgentInfo.decrement_workload`: `max(0, workload - 1)`, flip to idle on
reaching zero. -/
def AgentInfo.decrement_workload (a : AgentInfo) : AgentInfo :=
  let w := max 0 (a.workload - 1)
  { a with workload := w, status := if w = 0 then "idle" else a.status }

def AgentInfo.complete_task (a : AgentInfo) : AgentInfo :=
  AgentInfo.decrement_workload
    { a with total_tasks_completed := a.total_tasks_completed + 1 }

def AgentInfo.fail_task (a : AgentInfo) : AgentInfo :=
  AgentInfo.decrement_workload
    { a with total_tasks_failed := a.total_tasks_failed + 1 }

structure AgentRegistry where
  agents : List (String × AgentInfo)
  agents_by_type : List (String × List String)
  agents_by_capability : List (String × List String)
deriving Repr, DecidableEq

def emptyRegistry : AgentRegistry := ⟨[], [], []⟩

/-- `AgentRegistry.register`: overwrite the record with a fresh one and add
the id to the type and capability indices (stale index entries from an
earlier registration are not removed). -/
def register (r : AgentRegistry) (agent_id agent_type name : String)
    (capabilities : List String) : AgentRegistry :=
  let info : AgentInfo :=
    { agent_id := agent_id, agent_type := agent_type, name := name,
      capabilities := capabilities, status := "idle", workload := 0,
      total_tasks_completed := 0, total_tasks_failed := 0 }
  { agents := aset r.agents agent_id info,
    agents_by_type := aset r.agents_by_type agent_type
      (setAdd ((alookup r.agents_by_type agent_type).getD []) agent_id),
    agents_by_capability := capabilities.foldl
      (fun m cap => aset m cap (setAdd ((alookup m cap).getD []) agent_id))
      r.agents_by_capability }

/-- `AgentRegistry.unregister`: drop the record and discard the id from the
type and capability indices named by the current record. -/
def unregister (r : AgentRegistry) (agent_id : String) : AgentRegistry :=
  match alookup r.agents agent_id with
  | none => r
  | some info =>
      { agents := aerase r.agents agent_id,
        agents_by_type := aupdate r.agents_by_type info.agent_type
          (fun s => s.erase agent_id),
        agents_by_capability := info.capabilities.foldl
          (fun m cap => aupdate m cap (fun s => s.erase agent_id))
          r.agents_by_capability }

/-- `AgentRegistry.find_by_type`: ids from the type index, resolved through
the main record table. -/
def find_by_type (r : AgentRegistry) (agent_type : String) :
    List AgentInfo :=
  ((alookup r.agents_by_type agent_type).getD []).filterMap
    (fun aid => alookup r.agents aid)

def find_by_capability (r : AgentRegistry) (capability : String) :
    List AgentInfo :=
  ((alookup r.agents_by_capability capability).getD []).filterMap
    (fun aid => alookup r.agents aid)

/-- Python `min(candidates, key=lambda a: a.workload)`: first element with
the minimal workload. -/
def minByWorkload : List AgentInfo → Option AgentInfo
  | [] => none
  | a :: rest =>
      match minByWorkload rest with
      | none => some a
      | some b => if a.workload ≤ b.workload then some a else some b

/-- `AgentRegistry.find_available_agent`: candidates by type (or capability,
or everyone), keep only idle/busy, return the least loaded. -/
def find_available_agent (r : AgentRegistry) (agent_type : Option String)
    (capability : Option String) : Option AgentInfo :=
  let candidates :=
    match agent_type with
    | some t => find_by_type r t
    | none =>
        match capability with
        | some c => find_by_capability r c
        | none => r.agents.map Prod.snd
  let available := candidates.filter
    (fun a => a.status = "idle" ∨ a.status = "busy")
  minByWorkload available

/-- `AgentRegistry.update_agent_status`: set the status verbatim when the
agent exists. -/
def update_agent_status (r : AgentRegistry) (agent_id status : String) :
    AgentRegistry :=
  { r with agents := (aupdate r.agents agent_id
      (fun a => { a with status := status })) }

def increment_agent_workload (r : AgentRegistry) (agent_id : String) :
    AgentRegistry :=
  { r with agents := aupdate r.agents agent_id AgentInfo.increment_workload }

def decrement_agent_workload (r : AgentRegistry) (agent_id : String) :
    AgentRegistry :=
  { r with agents := aupdate r.agents agent_id AgentInfo.decrement_workload }

/-- `AgentRegistry.record_task_completion`. -/
def record_task_completion (r : AgentRegistry) (agent_id : String)
    (success : Bool) : AgentRegistry :=
  { r with agents := (aupdate r.agents agent_id
      (fun a => if success then a.complete_task else a.fail_task)) }

/-! ## Shared memory blackboard (`src/core/shared_memory.py`)

Observer callbacks are embedded as opaque names; persistence and locks carry
no observable state beyond the lock-table key set. -/

structure MemoryEntry where
  value : String
  author : String
  version : Nat
  metadata : List (String × String)
deriving Repr, DecidableEq, Inhabited

structure SharedMemory where
  data : List (String × MemoryEntry)
  key_locks : List String
  observers : List (String × List String)
  stats_reads : Nat
  stats_writes : Nat
  stats_deletes : Nat
  stats_notifications : Nat
deriving Repr, DecidableEq

def emptyMemory : SharedMemory := ⟨[], [], [], 0, 0, 0, 0⟩

/-- `SharedMemory.write`: ensure the per-key lock exists, compute the next
version (old + 1, or 1 for a fresh key), store the new entry, notify the
key's observers. -/
def memWrite (m : SharedMemory) (key value agent_id : String)
    (metadata : List (String × String)) : SharedMemory :=
  let new_version :=
    match alookup m.data key with
    | some old_entry => old_entry.version + 1
    | none => 1
  let entry : MemoryEntry :=
    { value := value, author := agent_id, version := new_version,
      metadata := metadata }
  { m with data := aset m.data key entry,
           key_locks := setAdd m.key_locks key,
           stats_writes := m.stats_writes + 1,
           stats_notifications := m.stats_notifications +
             ((alookup m.observers key).getD []).length }

/-- `SharedMemory.read`: the stored value or the default; reads of missing
keys are not counted. -/
def memRead (m : SharedMemory) (key : String) (dflt : Option String) :
    Option String × SharedMemory :=
  match alookup m.data key with
  | none => (dflt, m)
  | some entry => (some entry.value, { m with stats_reads := m.stats_reads + 1 })

/-- `SharedMemory.delete`: remove the entry, its lock and its observers,
returning whether the key existed. -/
def memDelete (m : SharedMemory) (key : String) : Bool × SharedMemory :=
  if (alookup m.data key).isSome then
    (true,
      { m with data := aerase m.data key,
               key_locks := m.key_locks.erase key,
               observers := aerase m.observers key,
               stats_deletes := m.stats_deletes + 1 })
  else (false, m)

/-- `SharedMemory.subscribe`: append the callback to the key's observer
list. -/
def memSubscribe (m : SharedMemory) (key callback : String) : SharedMemory :=
  { m with observers := (aset m.observers key
      (((alookup m.observers key).getD []) ++ [callback])) }

/-- `SharedMemory.unsubscribe`: remove the first matching callback when the
key has observers (a missing callback is only logged). -/
def memUnsubscribe (m : SharedMemory) (key callback : String) :
    SharedMemory :=
  { m with observers := aupdate m.observers key (fun s => s.erase callback) }

/-- `SharedMemory.clear`. -/
def memClear (m : SharedMemory) : SharedMemory :=
  { m with data := [], key_locks := [], observers := [] }

/-! ## Message bus (`src/core/message_bus.py`) -/

structure Message where
  sender : String
  receiver : String
  msg_type : String
  content : String
  metadata : List (String × String)
deriving Repr, DecidableEq, Inhabited

structure MessageBus where
  queues : List (String × List Message)
  subscriptions : List (String × List String)
  message_history : List Message
  stats_messages_sent : Nat
  stats_messages_received : Nat
  stats_broadcasts_sent : Nat
deriving Repr, DecidableEq

def emptyBus : MessageBus := ⟨[], [], [], 0, 0, 0⟩

/-- `MessageBus.register_agent`: create a fresh mailbox unless one exists. -/
def register_agent (b : MessageBus) (agent_id : String) : MessageBus :=
  if (alookup b.queues agent_id).isSome then b
  else { b with queues := aset b.queues agent_id [] }

/-- The bounded history buffer (`max_history_size = 1000`, oldest evicted). -/
def addToHistory (history : List Message) (msg : Message) : List Message :=
  let h2 := history ++ [msg]
  if 1000 < h2.length then h2.drop 1 else h2

/-- `MessageBus.send`: auto-register an unknown receiver, then enqueue the
message in its mailbox and record it in the history. -/
def busSend (b : MessageBus) (msg : Message) : MessageBus :=
  let b1 := register_agent b msg.receiver
  { b1 with queues := aupdate b1.queues msg.receiver (fun q => q ++ [msg]),
            stats_messages_sent := b1.stats_messages_sent + 1,
            message_history := addToHistory b1.message_history msg }

/-- `MessageBus.receive`: raises `ValueError` for an unregistered agent;
otherwise the next mailbox message in FIFO order, or `none` on timeout. -/
def busReceive (b : MessageBus) (agent_id : String) :
    Except String (Option Message × MessageBus) :=
  match alookup b.queues agent_id with
  | none => Except.error "Agent is not registered with MessageBus"
  | some mailbox =>
      match mailbox with
      | [] => Except.ok (none, b)
      | msg :: rest =>
          Except.ok (some msg,
            { b with queues := aupdate b.queues agent_id (fun _ => rest),
                     stats_messages_received :=
                       b.stats_messages_received + 1 })

/-! ## Orchestrator (`src/core/orchestrator.py`)

The reply that `execute_task` waits for over the bus comes from a concurrent
agent thread; it is modelled as an explicit `response` input.  Opaque dict
payloads written to shared memory are represented by stand-in strings. -/

structure Orchestrator where
  task_queue : TaskQueue
  dependency_graph : DependencyGraph
  agent_registry : AgentRegistry
  message_bus : MessageBus
  shared_memory : SharedMemory
deriving Repr, DecidableEq

def emptyOrchestrator : Orchestrator :=
  ⟨emptyTaskQueue, emptyGraph, emptyRegistry, emptyBus, emptyMemory⟩

/-- `Orchestrator.add_task`: enqueue in the task queue and mirror the
dependencies into the graph (stopping at the first `CircularDependencyError`
as the Python `for` loop would). -/
def orchAddTask (o : Orchestrator) (task_id agent_type action input_data :
    String) (priority : Int) (dependencies : List String)
    (metadata : List (String × String)) :
    Task × Orchestrator × Option String :=
  let (task, tq) := add_task o.task_queue task_id agent_type action
    input_data priority dependencies metadata
  let g0 := add_node o.dependency_graph task_id
  let rec depsLoop (g : DependencyGraph) : List String →
      DependencyGraph × Option String
    | [] => (g, none)
    | dep :: rest =>
        match add_dependency g task_id dep with
        | (some e, g2) => (g2, some e)
        | (none, g2) => depsLoop g2 rest
  let gr := depsLoop g0 dependencies
  (task, { o with task_queue := tq, dependency_graph := gr.1 }, gr.2)

/-- `Orchestrator.execute_task`: find the least-loaded agent of the task's
type — returning `False` (and touching nothing) when there is none — then
charge the agent, publish the task, send the task message and settle the
task from the (externally produced) reply. -/
def execute_task (o : Orchestrator) (task : Task)
    (response : Option Message) : Bool × Orchestrator :=
  match find_available_agent o.agent_registry (some task.agent_type) none with
  | none => (false, o)
  | some agent_info =>
      let reg1 := increment_agent_workload o.agent_registry
        agent_info.agent_id
      let mem1 := memWrite o.shared_memory ("task_" ++ task.task_id)
        "task.to_dict" "orchestrator" []
      let bus1 := busSend o.message_bus
        { sender := "orchestrator", receiver := agent_info.agent_id,
          msg_type := "task", content := task.task_id, metadata := [] }
      match response with
      | some r =>
          if r.msg_type = "result" then
            (true,
              { o with
                task_queue := complete_task o.task_queue task.task_id
                  r.content,
                agent_registry := record_task_completion reg1
                  agent_info.agent_id true,
                message_bus := bus1,
                shared_memory := memWrite mem1 ("result_" ++ task.task_id)
                  r.content agent_info.agent_id [] })
          else
            (false,
              { o with
                task_queue := fail_task o.task_queue task.task_id
                  "Unexpected response",
                agent_registry := record_task_completion reg1
                  agent_info.agent_id false,
                message_bus := bus1,
                shared_memory := mem1 })
      | none =>
          (false,
            { o with
              task_queue := fail_task o.task_queue task.task_id
                "Agent did not respond in time",
              agent_registry := record_task_completion reg1
                agent_info.agent_id false,
              message_bus := bus1,
              shared_memory := mem1 })

structure ExecSummary where
  completed : List String
  failed : List String
  cancelled : List String
deriving Repr, DecidableEq

/-- One iteration of the `while iteration < max_iterations` loop of
`Orchestrator.execute_all`: dequeue, dispatch, record the outcome.  The
third component is `false` when the loop would `break` (queue empty and
nothing pending). -/
def execute_all_iteration (o : Orchestrator) (response : Option Message)
    (summary : ExecSummary) : Orchestrator × ExecSummary × Bool :=
  match get_next_task o.task_queue with
  | (none, _) =>
      if o.task_queue.pending.length = 0 then (o, summary, false)
      else (o, summary, true)
  | (some task, tq2) =>
      let o1 := { o with task_queue := tq2 }
      let res := execute_task o1 task response
      if res.1 then
        (res.2, { summary with completed := summary.completed ++
          [task.task_id] }, true)
      else
        (res.2, { summary with failed := summary.failed ++
          [task.task_id] }, true)

/-- `Orchestrator.execute_all`: run up to `max_iterations` iterations and
report everything still pending as cancelled. -/
def execute_all (o : Orchestrator) (max_iterations : Nat)
    (responses : List (Option Message)) : Orchestrator × ExecSummary :=
  let rec loop (o : Orchestrator) (summary : ExecSummary)
      (responses : List (Option Message)) : Nat → Orchestrator × ExecSummary
    | 0 => (o, summary)
    | fuel + 1 =>
        let r := execute_all_iteration o (responses.headD none) summary
        if r.2.2 then loop r.1 r.2.1 responses.tail fuel
        else (r.1, r.2.1)
  let p := loop o ⟨[], [], []⟩ responses max_iterations
  (p.1, { p.2 with cancelled := p.1.task_queue.pending })

/-! ## Operation alphabets for the state-machine claims -/

inductive MemOp where
  | write (key value agent_id : String) (metadata : List (String × String))
  | read (key : String) (dflt : Option String)
  | delete (key : String)
  | subscribe (key callback : String)
  | unsubscribe (key callback : String)
  | clear
deriving Repr, DecidableEq

def memStep (m : SharedMemory) : MemOp → SharedMemory
  | MemOp.write k v a md => memWrite m k v a md
  | MemOp.read k d => (memRead m k d).2
  | MemOp.delete k => (memDelete m k).2
  | MemOp.subscribe k c => memSubscribe m k c
  | MemOp.unsubscribe k c => memUnsubscribe m k c
  | MemOp.clear => memClear m

inductive RegOp where
  | register (agent_id agent_type name : String) (capabilities : List String)
  | unregister (agent_id : String)
  | update_status (agent_id status : String)
  | inc_workload (agent_id : String)
  | dec_workload (agent_id : String)
  | record_completion (agent_id : String) (success : Bool)
deriving Repr, DecidableEq

def regStep (r : AgentRegistry) : RegOp → AgentRegistry
  | RegOp.register id ty nm caps => register r id ty nm caps
  | RegOp.unregister id => unregister r id
  | RegOp.update_status id st => update_agent_status r id st
  | RegOp.inc_workload id => increment_agent_workload r id
  | RegOp.dec_workload id => decrement_agent_workload r id
  | RegOp.record_completion id ok => record_task_completion r id ok

def runReg (r : AgentRegistry) : List RegOp → AgentRegistry
  | [] => r
  | op :: rest => runReg (regStep r op) rest

/-- Marks the registry operations the spec's idle/busy invariant tolerates:
`update_agent_status` may only set `offline`. -/
def opOffline : RegOp → Bool
  | RegOp.update_status _ st => st = "offline"
  | _ => true

/-- The claimed `AgentInfo` invariant: non-negative workload and, away from
the externally set `offline` state, idle iff no workload and busy iff some
workload. -/
def AgentInv (a : AgentInfo) : Prop :=
  0 ≤ a.workload ∧ (a.status ≠ "offline" →
    ((a.status = "idle" ↔ a.workload = 0) ∧
     (a.status = "busy" ↔ 0 < a.workload)))

instance (a : AgentInfo) : Decidable (AgentInv a) := by
  unfold AgentInv; infer_instance

/-! ## Further association-list lemmas -/

theorem alookup_aerase_self {α : Type} (m : List (String × α)) (k : String) :
    alookup (aerase m k) k = none := by
  induction m with
  | nil => rfl
  | cons p rest ih =>
      obtain ⟨k2, v2⟩ := p
      by_cases h : k2 = k
      · simp [aerase, h, ih]
      · simp [aerase, h, alookup_cons, ih]

theorem alookup_aerase_ne {α : Type} (m : List (String × α)) (k k2 : String)
    (h : k ≠ k2) : alookup (aerase m k) k2 = alookup m k2 := by
  induction m with
  | nil => rfl
  | cons p rest ih =>
      obtain ⟨k3, v3⟩ := p
      by_cases h3 : k3 = k
      · subst h3
        simp [aerase, alookup_cons, h, ih]
      · simp [aerase, h3, alookup_cons, ih]

theorem alookup_aupdate_cases {α : Type} {m : List (String × α)}
    {k id : String} {f : α → α} {a : α}
    (h : alookup (aupdate m k f) id = some a) :
    (k = id ∧ ∃ a0, alookup m id = some a0 ∧ a = f a0) ∨
    (k ≠ id ∧ alookup m id = some a) := by
  by_cases hk : k = id
  · subst hk
    rw [alookup_aupdate_self] at h
    cases h0 : alookup m k with
    | none => rw [h0] at h; cases h
    | some a0 =>
        rw [h0] at h
        exact Or.inl ⟨rfl, a0, rfl, (Option.some_injective _ h).symm⟩
  · rw [alookup_aupdate_ne m k id f hk] at h
    exact Or.inr ⟨hk, h⟩

theorem alookup_aerase_cases {α : Type} {m : List (String × α)}
    {k id : String} {a : α} (h : alookup (aerase m k) id = some a) :
    k ≠ id ∧ alookup m id = some a := by
  by_cases hk : k = id
  · subst hk; rw [alookup_aerase_self] at h; cases h
  · exact ⟨hk, by rwa [alookup_aerase_ne m k id hk] at h⟩

theorem alookup_mem {α : Type} {m : List (String × α)} {k : String} {v : α}
    (h : alookup m k = some v) : (k, v) ∈ m := by
  induction m with
  | nil => cases h
  | cons p rest ih =>
      obtain ⟨k2, v2⟩ := p
      rw [alookup_cons] at h
      by_cases hk : k2 = k
      · rw [if_pos hk] at h
        subst hk
        cases h
        exact List.mem_cons_self _ _
      · rw [if_neg hk] at h
        exact List.mem_cons_of_mem _ (ih h)

/-! ## Claim C7 -/

/-- C7: on the blackboard, the first write to a key creates version 1, every
further write (no intervening delete) bumps the version by exactly one, and
`write` is the only operation that changes an entry's version — any other
operation leaves an existing entry untouched (or removes the key
entirely, in which case there is no entry to speak of). -/
theorem blackboard_version_protocol (m : SharedMemory)
    (key value agent_id : String) (md : List (String × String)) :
    (alookup m.data key = none →
      alookup (memWrite m key value agent_id md).data key =
        some ⟨value, agent_id, 1, md⟩) ∧
    (∀ e, alookup m.data key = some e →
      alookup (memWrite m key value agent_id md).data key =
        some ⟨value, agent_id, e.version + 1, md⟩) ∧
    (∀ op : MemOp, (∀ v a md2, op ≠ MemOp.write key v a md2) →
      ∀ e2, alookup (memStep m op).data key = some e2 →
        alookup m.data key = some e2) := by
  refine ⟨?_, ?_, ?_⟩
  · intro h
    simp [memWrite, h, alookup_aset_self]
  · intro e h
    simp [memWrite, h, alookup_aset_self]
  · intro op hop e2 h2
    cases op with
    | write k2 v a md2 =>
        by_cases hk : k2 = key
        · subst hk
          exact absurd rfl (hop v a md2)
        · rw [show (memStep m (MemOp.write k2 v a md2)).data =
              aset m.data k2 ⟨v, a, _, md2⟩ from rfl,
            alookup_aset_ne m.data k2 key _ hk] at h2
          exact h2
    | read k2 d =>
        cases hl : alookup m.data k2 <;>
          simpa [memStep, memRead, hl] using h2
    | delete k2 =>
        by_cases hs : (alookup m.data k2).isSome
        · by_cases hk : k2 = key
          · subst hk
            rw [show (memStep m (MemOp.delete k2)).data =
                aerase m.data k2 from by simp [memStep, memDelete, hs],
              alookup_aerase_self] at h2
            cases h2
          · rw [show (memStep m (MemOp.delete k2)).data =
                aerase m.data k2 from by simp [memStep, memDelete, hs],
              alookup_aerase_ne m.data k2 key hk] at h2
            exact h2
        · simpa [memStep, memDelete, hs] using h2
    | subscribe k2 c => simpa [memStep, memSubscribe] using h2
    | unsubscribe k2 c => simpa [memStep, memUnsubscribe] using h2
    | clear => simp [memStep, memClear] at h2

/-- Witness for C7 at concrete inputs: a fresh key gets version 1 and a
second write to it gets version 2. -/
theorem blackboard_version_protocol_witness :
    alookup (memWrite emptyMemory "k" "v1" "alice" []).data "k" =
      some ⟨"v1", "alice", 1, []⟩ ∧
    alookup (memWrite (memWrite emptyMemory "k" "v1" "alice" [])
        "k" "v2" "bob" []).data "k" = some ⟨"v2", "bob", 2, []⟩ :=
  ⟨(blackboard_version_protocol emptyMemory "k" "v1" "alice" []).1 rfl,
   (blackboard_version_protocol (memWrite emptyMemory "k" "v1" "alice" [])
      "k" "v2" "bob" []).2.1 ⟨"v1", "alice", 1, []⟩ (by decide)⟩

/-! ## Claim C10 -/

/-- C10: a successful `delete(key)` returns `True` and removes the entry,
the key's lock and the key's observers; the next write to that key starts
again at version 1 whatever the version was before.  (The lock table is a
dict, so its key set — embedded as a list — has no duplicates.) -/
theorem blackboard_delete_resets_version (m : SharedMemory) (key : String)
    (hnd : m.key_locks.Nodup) (h : (alookup m.data key).isSome) :
    (memDelete m key).1 = true ∧
    alookup (memDelete m key).2.data key = none ∧
    key ∉ (memDelete m key).2.key_locks ∧
    alookup (memDelete m key).2.observers key = none ∧
    (∀ v a md, alookup (memWrite (memDelete m key).2 key v a md).data key =
      some ⟨v, a, 1, md⟩) := by
  refine ⟨by simp [memDelete, h], ?_, ?_, ?_, ?_⟩
  · simp [memDelete, h, alookup_aerase_self]
  · simp only [memDelete, h, if_true]
    intro hmem
    exact absurd rfl ((List.Nodup.mem_erase_iff hnd).1 hmem).1
  · simp [memDelete, h, alookup_aerase_self]
  · intro v a md
    simp [memWrite, memDelete, h, alookup_aerase_self, alookup_aset_self]

/-- Witness for C10: write twice (version 2), delete, write again —
version is 1 again. -/
theorem blackboard_delete_resets_version_witness :
    alookup (memWrite (memDelete (memWrite (memWrite emptyMemory
        "k" "v1" "a" []) "k" "v2" "a" []) "k").2 "k" "v3" "b" []).data "k" =
      some ⟨"v3", "b", 1, []⟩ :=
  (blackboard_delete_resets_version
    (memWrite (memWrite emptyMemory "k" "v1" "a" []) "k" "v2" "a" []) "k"
    (by decide) (by decide)).2.2.2.2 "v3" "b" []

/-! ## Claim C8 -/

/-- C8: sending to an unregistered receiver does not fail the sender — the
bus lazily creates the receiver's mailbox and the message lands in it —
whereas `receive` for an unregistered agent id raises `ValueError`. -/
theorem bus_send_lenient_receive_strict (b : MessageBus) (msg : Message)
    (agent_id : String) :
    (alookup b.queues msg.receiver = none →
      alookup (busSend b msg).queues msg.receiver = some [msg]) ∧
    (alookup b.queues agent_id = none →
      busReceive b agent_id =
        Except.error "Agent is not registered with MessageBus") := by
  constructor
  · intro h
    simp [busSend, register_agent, h, alookup_aset_self,
      alookup_aupdate_self]
  · intro h
    simp [busReceive, h]

/-- Witness for C8 on the empty bus. -/
theorem bus_send_lenient_receive_strict_witness :
    alookup (busSend emptyBus ⟨"s", "r", "task", "c", []⟩).queues "r" =
      some [⟨"s", "r", "task", "c", []⟩] ∧
    busReceive emptyBus "ghost" =
      Except.error "Agent is not registered with MessageBus" :=
  ⟨(bus_send_lenient_receive_strict emptyBus ⟨"s", "r", "task", "c", []⟩
      "ghost").1 rfl,
   (bus_send_lenient_receive_strict emptyBus ⟨"s", "r", "task", "c", []⟩
      "ghost").2 rfl⟩

/-! ## Claim C9 -/

/-- C9: re-registering an existing agent id under a different type replaces
the stored record with a fresh one (workload and counters zero) but leaves
the id in the old type's index, so `find_by_type` on the old type still
resolves to this agent — now carrying the new `agent_type` — and
`find_available_agent` restricted to the old type still selects it (stated
for the case where it is the old type's only indexed agent). -/
theorem reregister_leaves_stale_type_index (r : AgentRegistry)
    (id T1 T2 nm : String) (caps : List String) (hT : T1 ≠ T2)
    (hidx : id ∈ (alookup r.agents_by_type T1).getD []) :
    alookup (register r id T2 nm caps).agents id =
      some ⟨id, T2, nm, caps, "idle", 0, 0, 0⟩ ∧
    id ∈ (alookup (register r id T2 nm caps).agents_by_type T1).getD [] ∧
    (⟨id, T2, nm, caps, "idle", 0, 0, 0⟩ : AgentInfo) ∈
      find_by_type (register r id T2 nm caps) T1 ∧
    ((alookup r.agents_by_type T1).getD [] = [id] →
      find_available_agent (register r id T2 nm caps) (some T1) none =
        some ⟨id, T2, nm, caps, "idle", 0, 0, 0⟩) := by
  have hagents : alookup (register r id T2 nm caps).agents id =
      some ⟨id, T2, nm, caps, "idle", 0, 0, 0⟩ := by
    simp [register, alookup_aset_self]
  have htype : alookup (register r id T2 nm caps).agents_by_type T1 =
      alookup r.agents_by_type T1 := by
    simp only [register]
    exact alookup_aset_ne r.agents_by_type T2 T1 _ (Ne.symm hT)
  refine ⟨hagents, ?_, ?_, ?_⟩
  · rw [htype]; exact hidx
  · unfold find_by_type
    rw [htype]
    exact List.mem_filterMap.2 ⟨id, hidx, hagents⟩
  · intro hone
    have hfbt : find_by_type (register r id T2 nm caps) T1 =
        [⟨id, T2, nm, caps, "idle", 0, 0, 0⟩] := by
      unfold find_by_type
      rw [htype, hone]
      simp [List.filterMap, hagents]
    simp [find_available_agent, hfbt, minByWorkload]

/-- Witness for C9: one agent registered as `T1`, then re-registered as
`T2`; the old-type lookup still dispatches to it. -/
theorem reregister_leaves_stale_type_index_witness :
    alookup (register (register emptyRegistry "a1" "T1" "n1" ["c1"])
        "a1" "T2" "n2" ["c2"]).agents "a1" =
      some ⟨"a1", "T2", "n2", ["c2"], "idle", 0, 0, 0⟩ ∧
    "a1" ∈ (alookup (register (register emptyRegistry "a1" "T1" "n1" ["c1"])
        "a1" "T2" "n2" ["c2"]).agents_by_type "T1").getD [] ∧
    (⟨"a1", "T2", "n2", ["c2"], "idle", 0, 0, 0⟩ : AgentInfo) ∈
      find_by_type (register (register emptyRegistry "a1" "T1" "n1" ["c1"])
        "a1" "T2" "n2" ["c2"]) "T1" ∧
    ((alookup (register emptyRegistry "a1" "T1" "n1"
        ["c1"]).agents_by_type "T1").getD [] = ["a1"] →
      find_available_agent (register (register emptyRegistry
          "a1" "T1" "n1" ["c1"]) "a1" "T2" "n2" ["c2"]) (some "T1") none =
        some ⟨"a1", "T2", "n2", ["c2"], "idle", 0, 0, 0⟩) :=
  reregister_leaves_stale_type_index
    (register emptyRegistry "a1" "T1" "n1" ["c1"]) "a1" "T1" "T2" "n2"
    ["c2"] (by decide) (by decide)

/-! ## Claim C4 -/

def WorkloadNonneg (r : AgentRegistry) : Prop :=
  ∀ id a, alookup r.agents id = some a → 0 ≤ a.workload

def RegistryInv (r : AgentRegistry) : Prop :=
  ∀ id a, alookup r.agents id = some a → AgentInv a

theorem increment_workload_def (a : AgentInfo) :
    a.increment_workload =
      { a with workload := a.workload + 1, status := "busy" } := rfl

theorem decrement_workload_def (a : AgentInfo) :
    a.decrement_workload =
      { a with workload := max 0 (a.workload - 1),
               status := if max 0 (a.workload - 1) = 0 then "idle"
                         else a.status } := rfl

theorem AgentInv.increment {a : AgentInfo} (h : AgentInv a) :
    AgentInv a.increment_workload := by
  obtain ⟨hw, _⟩ := h
  refine ⟨?_, fun _ => ⟨?_, ?_⟩⟩
  · show (0 : Int) ≤ a.workload + 1
    omega
  · show "busy" = "idle" ↔ a.workload + 1 = 0
    constructor
    · intro hcon; exact absurd hcon (by decide)
    · intro hcon; omega
  · show "busy" = "busy" ↔ 0 < a.workload + 1
    constructor
    · intro _; omega
    · intro _; rfl

theorem AgentInv.decrement {a : AgentInfo} (h : AgentInv a) :
    AgentInv a.decrement_workload := by
  obtain ⟨hw, hiff⟩ := h
  have hmax : (0 : Int) ≤ max 0 (a.workload - 1) := le_max_left _ _
  by_cases hz : max 0 (a.workload - 1) = 0
  · refine ⟨hmax, fun _ => ⟨?_, ?_⟩⟩
    · show (if max 0 (a.workload - 1) = 0 then "idle" else a.status) =
          "idle" ↔ max 0 (a.workload - 1) = 0
      rw [if_pos hz]
      exact ⟨fun _ => hz, fun _ => rfl⟩
    · show (if max 0 (a.workload - 1) = 0 then "idle" else a.status) =
          "busy" ↔ 0 < max 0 (a.workload - 1)
      rw [if_pos hz]
      constructor
      · intro hcon; exact absurd hcon (by decide)
      · intro hlt; omega
  · have hgt : (0 : Int) < a.workload := by
      rcases max_choice 0 (a.workload - 1) with hm | hm
      · exact absurd hm hz
      · rw [hm] at hz hmax; omega
    by_cases hoff : a.status = "offline"
    · refine ⟨hmax, fun hcon => ?_⟩
      revert hcon
      show (if max 0 (a.workload - 1) = 0 then "idle" else a.status) ≠
          "offline" → _
      rw [if_neg hz]
      intro hcon
      exact absurd hoff hcon
    · have hb : a.status = "busy" := (hiff hoff).2.mpr hgt
      refine ⟨hmax, fun _ => ⟨?_, ?_⟩⟩
      · show (if max 0 (a.workload - 1) = 0 then "idle" else a.status) =
            "idle" ↔ max 0 (a.workload - 1) = 0
        rw [if_neg hz, hb]
        constructor
        · intro hcon; exact absurd hcon (by decide)
        · intro h0; exact absurd h0 hz
      · show (if max 0 (a.workload - 1) = 0 then "idle" else a.status) =
            "busy" ↔ 0 < max 0 (a.workload - 1)
        rw [if_neg hz, hb]
        exact ⟨fun _ => by omega, fun _ => rfl⟩

theorem AgentInv.complete {a : AgentInfo} (h : AgentInv a) :
    AgentInv a.complete_task := by
  unfold AgentInfo.complete_task
  exact AgentInv.decrement (by exact h)

theorem AgentInv.failt {a : AgentInfo} (h : AgentInv a) :
    AgentInv a.fail_task := by
  unfold AgentInfo.fail_task
  exact AgentInv.decrement (by exact h)

theorem regStep_RegistryInv (r : AgentRegistry) (op : RegOp)
    (hr : RegistryInv r) (hop : opOffline op = true) :
    RegistryInv (regStep r op) := by
  cases op with
  | register id ty nm caps =>
      intro id2 a h
      by_cases hk : id = id2
      · subst hk
        rw [show (regStep r (RegOp.register id ty nm caps)).agents =
            aset r.agents id ⟨id, ty, nm, caps, "idle", 0, 0, 0⟩ from rfl,
          alookup_aset_self] at h
        cases h
        exact ⟨by show (0 : Int) ≤ 0; omega, fun _ => by constructor <;> simp⟩
      · rw [show (regStep r (RegOp.register id ty nm caps)).agents =
            aset r.agents id ⟨id, ty, nm, caps, "idle", 0, 0, 0⟩ from rfl,
          alookup_aset_ne r.agents id id2 _ hk] at h
        exact hr id2 a h
  | unregister id =>
      intro id2 a h
      simp only [regStep, unregister] at h
      cases hl : alookup r.agents id with
      | none => rw [hl] at h; exact hr id2 a h
      | some info =>
          rw [hl] at h
          simp only at h
          exact hr id2 a (alookup_aerase_cases h).2
  | update_status id st =>
      intro id2 a h
      simp only [opOffline, decide_eq_true_eq] at hop
      subst hop
      simp only [regStep, update_agent_status] at h
      rcases alookup_aupdate_cases h with ⟨rfl, a0, h0, rfl⟩ | ⟨_, h0⟩
      · obtain ⟨hw, _⟩ := hr id a0 h0
        exact ⟨hw, fun hcon => absurd rfl hcon⟩
      · exact hr id2 a h0
  | inc_workload id =>
      intro id2 a h
      simp only [regStep, increment_agent_workload] at h
      rcases alookup_aupdate_cases h with ⟨rfl, a0, h0, rfl⟩ | ⟨_, h0⟩
      · exact AgentInv.increment (hr id a0 h0)
      · exact hr id2 a h0
  | dec_workload id =>
      intro id2 a h
      simp only [regStep, decrement_agent_workload] at h
      rcases alookup_aupdate_cases h with ⟨rfl, a0, h0, rfl⟩ | ⟨_, h0⟩
      · exact AgentInv.decrement (hr id a0 h0)
      · exact hr id2 a h0
  | record_completion id ok =>
      intro id2 a h
      simp only [regStep, record_task_completion] at h
      rcases alookup_aupdate_cases h with ⟨rfl, a0, h0, rfl⟩ | ⟨_, h0⟩
      · cases ok with
        | true => simpa using AgentInv.complete (hr id a0 h0)
        | false => simpa using AgentInv.failt (hr id a0 h0)
      · exact hr id2 a h0

theorem regStep_WorkloadNonneg (r : AgentRegistry) (op : RegOp)
    (hr : WorkloadNonneg r) : WorkloadNonneg (regStep r op) := by
  cases op with
  | register id ty nm caps =>
      intro id2 a h
      by_cases hk : id = id2
      · subst hk
        rw [show (regStep r (RegOp.register id ty nm caps)).agents =
            aset r.agents id ⟨id, ty, nm, caps, "idle", 0, 0, 0⟩ from rfl,
          alookup_aset_self] at h
        cases h; simp
      · rw [show (regStep r (RegOp.register id ty nm caps)).agents =
            aset r.agents id ⟨id, ty, nm, caps, "idle", 0, 0, 0⟩ from rfl,
          alookup_aset_ne r.agents id id2 _ hk] at h
        exact hr id2 a h
  | unregister id =>
      intro id2 a h
      simp only [regStep, unregister] at h
      cases hl : alookup r.agents id with
      | none => rw [hl] at h; exact hr id2 a h
      | some info =>
          rw [hl] at h
          simp only at h
          exact hr id2 a (alookup_aerase_cases h).2
  | update_status id st =>
      intro id2 a h
      simp only [regStep, update_agent_status] at h
      rcases alookup_aupdate_cases h with ⟨rfl, a0, h0, rfl⟩ | ⟨_, h0⟩
      · exact hr id a0 h0
      · exact hr id2 a h0
  | inc_workload id =>
      intro id2 a h
      simp only [regStep, increment_agent_workload] at h
      rcases alookup_aupdate_cases h with ⟨rfl, a0, h0, rfl⟩ | ⟨_, h0⟩
      · have := hr id a0 h0
        show (0 : Int) ≤ a0.workload + 1
        omega
      · exact hr id2 a h0
  | dec_workload id =>
      intro id2 a h
      simp only [regStep, decrement_agent_workload] at h
      rcases alookup_aupdate_cases h with ⟨rfl, a0, h0, rfl⟩ | ⟨_, h0⟩
      · show (0 : Int) ≤ max 0 (a0.workload - 1)
        exact le_max_left _ _
      · exact hr id2 a h0
  | record_completion id ok =>
      intro id2 a h
      simp only [regStep, record_task_completion] at h
      rcases alookup_aupdate_cases h with ⟨rfl, a0, h0, rfl⟩ | ⟨_, h0⟩
      · cases ok with
        | true =>
            show (0 : Int) ≤ (if true = true then a0.complete_task
              else a0.fail_task).workload
            rw [if_pos rfl]
            show (0 : Int) ≤ max 0
              ({ a0 with total_tasks_completed :=
                  a0.total_tasks_completed + 1 }.workload - 1)
            exact le_max_left _ _
        | false =>
            show (0 : Int) ≤ (if false = true then a0.complete_task
              else a0.fail_task).workload
            rw [if_neg (by decide)]
            show (0 : Int) ≤ max 0
              ({ a0 with total_tasks_failed :=
                  a0.total_tasks_failed + 1 }.workload - 1)
            exact le_max_left _ _
      · exact hr id2 a h0

theorem runReg_RegistryInv (ops : List RegOp) :
    ∀ r : AgentRegistry, RegistryInv r →
      (∀ op ∈ ops, opOffline op = true) → RegistryInv (runReg r ops) := by
  induction ops with
  | nil => intro r hr _; exact hr
  | cons op rest ih =>
      intro r hr hops
      exact ih (regStep r op)
        (regStep_RegistryInv r op hr (hops op (List.mem_cons_self _ _)))
        (fun o ho => hops o (List.mem_cons_of_mem _ ho))

theorem runReg_WorkloadNonneg (ops : List RegOp) :
    ∀ r : AgentRegistry, WorkloadNonneg r →
      WorkloadNonneg (runReg r ops) := by
  induction ops with
  | nil => intro r hr; exact hr
  | cons op rest ih =>
      intro r hr
      exact ih (regStep r op) (regStep_WorkloadNonneg r op hr)

/-- C4 (amended): over every sequence of registry operations the workload
of every stored record stays non-negative; and when `update_agent_status`
is only ever used to set `offline` — the use the spec ascribes to it — the
full invariant holds: away from `offline`, `idle` iff workload zero and
`busy` iff workload positive. -/
theorem registry_workload_invariant (ops : List RegOp) :
    WorkloadNonneg (runReg emptyRegistry ops) ∧
    ((∀ op ∈ ops, opOffline op = true) →
      RegistryInv (runReg emptyRegistry ops)) :=
  ⟨runReg_WorkloadNonneg ops emptyRegistry (fun _ _ h => by cases h),
   fun hops => runReg_RegistryInv ops emptyRegistry
     (fun _ _ h => by cases h) hops⟩

/-- Witness for C4 at a concrete operation sequence (register, load up,
set offline externally, unload). -/
theorem registry_workload_invariant_witness :
    WorkloadNonneg (runReg emptyRegistry
      [RegOp.register "a" "T" "n" [], RegOp.inc_workload "a",
       RegOp.update_status "a" "offline", RegOp.dec_workload "a"]) ∧
    RegistryInv (runReg emptyRegistry
      [RegOp.register "a" "T" "n" [], RegOp.inc_workload "a",
       RegOp.update_status "a" "offline", RegOp.dec_workload "a"]) :=
  ⟨(registry_workload_invariant _).1,
   (registry_workload_invariant
      [RegOp.register "a" "T" "n" [], RegOp.inc_workload "a",
       RegOp.update_status "a" "offline", RegOp.dec_workload "a"]).2
     (by decide)⟩

/-- Counterexample to C4 as stated: `update_agent_status` is among the
listed operations, and setting `idle` on a loaded agent is accepted by the
code, producing a record with status `idle` and workload 1 — the claimed
iff fails while the status is not `offline`. -/
theorem registry_workload_invariant_counterexample :
    alookup (runReg emptyRegistry
      [RegOp.register "a" "T" "n" [], RegOp.inc_workload "a",
       RegOp.update_status "a" "idle"]).agents "a" =
      some ⟨"a", "T", "n", [], "idle", 1, 0, 0⟩ ∧
    ¬ AgentInv ⟨"a", "T", "n", [], "idle", 1, 0, 0⟩ := by
  constructor
  · decide
  · decide

/-! ## Claim C1 -/

/-- C1 (amended): when no idle/busy agent matches the task's `agent_type`,
the dispatch pass has already popped the task from the ready heap and
marked it `IN_PROGRESS` (it left the pending set).  `execute_task` then
returns `False` without touching any state — in particular the task is not
pushed back — and the `execute_all` pass records the task id in the
summary's `failed` list, even though `fail_task` was never called (the
queue's failed set is unchanged and the task's own status stays
`IN_PROGRESS`).  The two invariant hypotheses — the id map binds each id to
a task carrying it, and the pending set is duplicate-free — hold for every
queue built through the `TaskQueue` API. -/
theorem dispatch_no_agent_drops_task (o : Orchestrator) (task : Task)
    (tq2 : TaskQueue) (response : Option Message) (summary : ExecSummary)
    (hids : ∀ p ∈ o.task_queue.tasks, (Prod.snd p).task_id = Prod.fst p)
    (hnd : o.task_queue.pending.Nodup)
    (hget : get_next_task o.task_queue = (some task, tq2))
    (hagent : find_available_agent o.agent_registry (some task.agent_type)
      none = none) :
    task.status = TaskStatus.in_progress ∧
    task.task_id ∉ tq2.pending ∧
    task.task_id ∈ tq2.in_progress ∧
    execute_task { o with task_queue := tq2 } task response =
      (false, { o with task_queue := tq2 }) ∧
    execute_all_iteration o response summary =
      ({ o with task_queue := tq2 },
       { summary with failed := summary.failed ++ [task.task_id] }, true) ∧
    tq2.failed = o.task_queue.failed ∧
    (alookup tq2.tasks task.task_id ≠ none →
      (alookup tq2.tasks task.task_id).map Task.status =
        some TaskStatus.in_progress) := by
  have hexec : execute_task { o with task_queue := tq2 } task response =
      (false, { o with task_queue := tq2 }) := by
    unfold execute_task
    rw [show ({ o with task_queue := tq2 } : Orchestrator).agent_registry =
      o.agent_registry from rfl, hagent]
  have hiter : execute_all_iteration o response summary =
      ({ o with task_queue := tq2 },
       { summary with failed := summary.failed ++ [task.task_id] }, true) := by
    unfold execute_all_iteration
    rw [hget]
    simp [hexec]
  have hget0 := hget
  rcases hp : heappop o.task_queue.queue with ⟨opt, rest⟩
  unfold get_next_task at hget0
  rw [hp] at hget0
  cases opt with
  | none => simp at hget0
  | some e =>
      simp only [Prod.mk.injEq, Option.some.injEq] at hget0
      obtain ⟨htask, htq⟩ := hget0
      have hstat : task.status = TaskStatus.in_progress := by
        rw [← htask]
        cases alookup o.task_queue.tasks e.task_id <;> rfl
      have hid : task.task_id = e.task_id := by
        rw [← htask]
        cases hl : alookup o.task_queue.tasks e.task_id with
        | none => rfl
        | some cur => exact hids (e.task_id, cur) (alookup_mem hl)
      have hpend : tq2.pending = o.task_queue.pending.erase e.task_id := by
        rw [← htq]
      have hinp : tq2.in_progress =
          setAdd o.task_queue.in_progress e.task_id := by
        rw [← htq]
      have hfail : tq2.failed = o.task_queue.failed := by
        rw [← htq]
      have htasks : tq2.tasks = (aupdate o.task_queue.tasks e.task_id
          (fun _ => (match alookup o.task_queue.tasks e.task_id with
                     | some cur => cur
                     | none => e).start)) := by
        rw [← htq]
      refine ⟨hstat, ?_, ?_, hexec, hiter, hfail, ?_⟩
      · rw [hpend, hid]
        intro hmem
        exact absurd ((List.Nodup.mem_erase_iff hnd).1 hmem).1 (by simp)
      · rw [hinp, hid]
        exact (mem_setAdd _ _ _).2 (Or.inr rfl)
      · rw [htasks, hid, alookup_aupdate_self]
        intro hne
        cases hl : alookup o.task_queue.tasks e.task_id with
        | none => simp [hl] at hne
        | some cur => simp [hl, Task.start]

/-- Witness for C1's amended theorem on a concrete one-task, zero-agent
orchestrator. -/
theorem dispatch_no_agent_drops_task_witness :
    (((get_next_task (add_task emptyTaskQueue "t1" "research" "act" "" 2 []
        []).2).1.getD default).status = TaskStatus.in_progress) ∧
    (execute_all_iteration { emptyOrchestrator with task_queue :=
        (add_task emptyTaskQueue "t1" "research" "act" "" 2 [] []).2 }
      none ⟨[], [], []⟩).2.1.failed = ["t1"] := by
  have h := dispatch_no_agent_drops_task
    { emptyOrchestrator with task_queue :=
        (add_task emptyTaskQueue "t1" "research" "act" "" 2 [] []).2 }
    ((get_next_task (add_task emptyTaskQueue "t1" "research" "act" "" 2 []
        []).2).1.getD default)
    ((get_next_task (add_task emptyTaskQueue "t1" "research" "act" "" 2 []
        []).2).2)
    none ⟨[], [], []⟩ (by decide) (by decide) (by decide) (by decide)
  refine ⟨h.1, ?_⟩
  rw [h.2.2.2.2.1]
  decide

/-- Counterexample to C1 as stated: with one ready task and no registered
agents, a single pass of `execute_all` pops the task (pending becomes
empty), the next pass has nothing to retry (`get_next_task` yields
nothing), the summary records the task as failed, and a full run reports it
failed — not pending, not cancelled. -/
theorem dispatch_no_agent_drops_task_counterexample :
    (execute_all_iteration { emptyOrchestrator with task_queue :=
        (add_task emptyTaskQueue "t1" "research" "act" "" 2 [] []).2 }
      none ⟨[], [], []⟩).2.1.failed = ["t1"] ∧
    (execute_all_iteration { emptyOrchestrator with task_queue :=
        (add_task emptyTaskQueue "t1" "research" "act" "" 2 [] []).2 }
      none ⟨[], [], []⟩).1.task_queue.pending = [] ∧
    (get_next_task (execute_all_iteration { emptyOrchestrator with
        task_queue := (add_task emptyTaskQueue "t1" "research" "act" "" 2 []
          []).2 } none ⟨[], [], []⟩).1.task_queue).1 = none ∧
    (alookup (execute_all_iteration { emptyOrchestrator with task_queue :=
        (add_task emptyTaskQueue "t1" "research" "act" "" 2 [] []).2 }
      none ⟨[], [], []⟩).1.task_queue.tasks "t1").map Task.status =
      some TaskStatus.in_progress ∧
    (execute_all { emptyOrchestrator with task_queue :=
        (add_task emptyTaskQueue "t1" "research" "act" "" 2 [] []).2 }
      5 []).2 = ⟨[], ["t1"], []⟩ := by
  refine ⟨by decide, by decide, by decide, by decide, by decide⟩

/-! ## Claim C3 -/

/-- C3 (amended): whenever `dependsOn` already reaches `node` through
dependency edges (reflexively-transitively, as the BFS checks), the call
raises `CircularDependencyError`; no edge is applied in either direction —
every adjacency set reads back unchanged — and the node set is unchanged
except that the two `add_node` calls issued before the cycle check still
ensure `node` and `dependsOn` are present.  When both endpoints are already
fully present, the graph is entirely unchanged. -/
theorem add_dependency_cycle_rejected (g : DependencyGraph) (n d : String)
    (h : ReachesL g.graph d n) :
    (add_dependency g n d).1.isSome = true ∧
    (∀ z, adjOf (add_dependency g n d).2.graph z = adjOf g.graph z) ∧
    (∀ z, adjOf (add_dependency g n d).2.reverse_graph z =
      adjOf g.reverse_graph z) ∧
    (add_dependency g n d).2.nodes = setAdd (setAdd g.nodes n) d ∧
    (n ∈ g.nodes → d ∈ g.nodes → (alookup g.graph n).isSome →
      (alookup g.graph d).isSome → (alookup g.reverse_graph n).isSome →
      (alookup g.reverse_graph d).isSome → (add_dependency g n d).2 = g) := by
  have heq := add_dependency_of_reaches g n d h
  rw [heq]
  refine ⟨rfl, ?_, ?_, rfl, ?_⟩
  · intro z
    rw [adjOf_add_node_graph, adjOf_add_node_graph]
  · intro z
    rw [adjOf_add_node_reverse, adjOf_add_node_reverse]
  · intro hn hd hg1 hg2 hr1 hr2
    rw [add_node_eq_self g n hn hg1 hr1, add_node_eq_self g d hd hg2 hr2]

/-- Witness for C3's amended theorem: with the edge `b depends on a` in
place, `add_dependency("a", "b")` would close a cycle; it errors and leaves
the graph exactly as it was. -/
theorem add_dependency_cycle_rejected_witness :
    (add_dependency (add_dependency emptyGraph "b" "a").2 "a" "b").1.isSome =
      true ∧
    (add_dependency (add_dependency emptyGraph "b" "a").2 "a" "b").2 =
      (add_dependency emptyGraph "b" "a").2 := by
  have h := add_dependency_cycle_rejected
    (add_dependency emptyGraph "b" "a").2 "a" "b"
    (ReachesL.step (by decide) (ReachesL.refl "a"))
  exact ⟨h.1, h.2.2.2.2 (by decide) (by decide) (by decide) (by decide)
    (by decide) (by decide)⟩

/-- Counterexample to C3 as stated: a fresh self-dependency satisfies the
reachability hypothesis, raises the error — but the node set is not
unchanged, because `add_node` already ran before the cycle check. -/
theorem add_dependency_cycle_rejected_counterexample :
    ReachesL emptyGraph.graph "a" "a" ∧
    (add_dependency emptyGraph "a" "a").1.isSome = true ∧
    (add_dependency emptyGraph "a" "a").2.nodes = ["a"] ∧
    emptyGraph.nodes = [] :=
  ⟨ReachesL.refl "a", by decide, by decide, rfl⟩

/-! ## Claim C2: small-heap lemmas for the CPython heap embedding -/


theorem heappush_nil (t : Task) : heappush [] t = [t] := rfl

theorem heappush_one (t1 t2 : Task) (h : t2.priority = t1.priority) :
    heappush [t1] t2 = [t1, t2] := by
  simp [heappush, siftdownLoop, taskLT, h]

theorem heappush_two (t1 t2 t3 : Task) (h : t3.priority = t1.priority) :
    heappush [t1, t2] t3 = [t1, t2, t3] := by
  simp [heappush, siftdownLoop, taskLT, h]

theorem heappop_one (t1 : Task) : heappop [t1] = (some t1, []) := rfl

theorem heappop_two (t1 t2 : Task) : heappop [t1, t2] = (some t1, [t2]) := rfl

theorem heappop_three (t1 t2 t3 : Task) (h : t3.priority = t2.priority) :
    heappop [t1, t2, t3] = (some t1, [t2, t3]) := by
  simp [heappop, pySiftup, siftupLoop, siftdownLoop, taskLT, h]

def mkTask (p : Int) (id ty ac inp : String)
    (md : List (String × String)) : Task :=
  ⟨p, id, ty, ac, inp, [], md, TaskStatus.pending, none, none⟩

theorem add_task_no_deps (q : TaskQueue) (id ty ac inp : String) (p : Int)
    (md : List (String × String)) :
    add_task q id ty ac inp p [] md =
      (mkTask p id ty ac inp md,
       { q with queue := heappush q.queue (mkTask p id ty ac inp md),
                tasks := aset q.tasks id (mkTask p id ty ac inp md),
                pending := setAdd q.pending id,
                stats_total := q.stats_total + 1 }) := by
  unfold add_task mkTask
  simp [canExec]

theorem get_next_task_eq (q : TaskQueue) (e cur : Task) (rest : List Task)
    (hp : heappop q.queue = (some e, rest))
    (hl : alookup q.tasks e.task_id = some cur) :
    get_next_task q = (some cur.start,
      { q with queue := rest,
               tasks := (aupdate q.tasks e.task_id (fun _ => cur.start)),
               pending := q.pending.erase e.task_id,
               in_progress := setAdd q.in_progress e.task_id }) := by
  unfold get_next_task
  rw [hp]
  simp only [hl]



/-- C2 (amended): with equal priorities and no dependencies,
`get_next_task` returns tasks in insertion order for queues of up to three
tasks — the heap happens to behave FIFO there — but not for every length:
the underlying `heapq` order has no insertion-order tie-break (see the
counterexample with four tasks, which come back 1,3,2,4). -/
theorem queue_fifo_up_to_three
    (p : Int) (id1 id2 id3 ty1 ty2 ty3 ac1 ac2 ac3 in1 in2 in3 : String)
    (md1 md2 md3 : List (String × String))
    (h12 : id1 ≠ id2) (h13 : id1 ≠ id3) (h23 : id2 ≠ id3) :
    ((get_next_task (add_task emptyTaskQueue id1 ty1 ac1 in1 p []
        md1).2).1.map Task.task_id = some id1) ∧
    ((get_next_task (add_task (add_task emptyTaskQueue id1 ty1 ac1 in1 p []
        md1).2 id2 ty2 ac2 in2 p [] md2).2).1.map Task.task_id = some id1 ∧
     (get_next_task (get_next_task (add_task (add_task emptyTaskQueue id1
        ty1 ac1 in1 p [] md1).2 id2 ty2 ac2 in2 p [] md2).2).2).1.map
          Task.task_id = some id2) ∧
    ((get_next_task (add_task (add_task (add_task emptyTaskQueue id1 ty1
        ac1 in1 p [] md1).2 id2 ty2 ac2 in2 p [] md2).2 id3 ty3 ac3 in3 p []
        md3).2).1.map Task.task_id = some id1 ∧
     (get_next_task (get_next_task (add_task (add_task (add_task
        emptyTaskQueue id1 ty1 ac1 in1 p [] md1).2 id2 ty2 ac2 in2 p []
        md2).2 id3 ty3 ac3 in3 p [] md3).2).2).1.map Task.task_id =
          some id2 ∧
     (get_next_task (get_next_task (get_next_task (add_task (add_task
        (add_task emptyTaskQueue id1 ty1 ac1 in1 p [] md1).2 id2 ty2 ac2
        in2 p [] md2).2 id3 ty3 ac3 in3 p [] md3).2).2).2).1.map
          Task.task_id = some id3) := by
  have h21 := Ne.symm h12
  have h31 := Ne.symm h13
  have h32 := Ne.symm h23
  set t1 := mkTask p id1 ty1 ac1 in1 md1 with ht1
  set t2 := mkTask p id2 ty2 ac2 in2 md2 with ht2
  set t3 := mkTask p id3 ty3 ac3 in3 md3 with ht3
  have hp21 : t2.priority = t1.priority := rfl
  have hp31 : t3.priority = t1.priority := rfl
  have hp32 : t3.priority = t2.priority := rfl
  -- one task
  have g1a : get_next_task (add_task emptyTaskQueue id1 ty1 ac1 in1 p []
      md1).2 = (some t1.start,
        { (add_task emptyTaskQueue id1 ty1 ac1 in1 p [] md1).2 with
            queue := ([] : List Task),
            tasks := (aupdate (add_task emptyTaskQueue id1 ty1 ac1 in1 p []
              md1).2.tasks t1.task_id (fun _ => t1.start)),
            pending := (add_task emptyTaskQueue id1 ty1 ac1 in1 p []
              md1).2.pending.erase t1.task_id,
            in_progress := setAdd (add_task emptyTaskQueue id1 ty1 ac1 in1
              p [] md1).2.in_progress t1.task_id }) := by
    apply get_next_task_eq
    · exact heappop_one t1
    · show alookup (aset [] id1 t1) id1 = some t1
      exact alookup_aset_self [] id1 t1
  -- two tasks
  have g2a : get_next_task (add_task (add_task emptyTaskQueue id1 ty1 ac1
      in1 p [] md1).2 id2 ty2 ac2 in2 p [] md2).2 = (some t1.start,
        { (add_task (add_task emptyTaskQueue id1 ty1 ac1 in1 p [] md1).2
            id2 ty2 ac2 in2 p [] md2).2 with
            queue := [t2],
            tasks := (aupdate (add_task (add_task emptyTaskQueue id1 ty1
              ac1 in1 p [] md1).2 id2 ty2 ac2 in2 p [] md2).2.tasks
              t1.task_id (fun _ => t1.start)),
            pending := (add_task (add_task emptyTaskQueue id1 ty1 ac1 in1 p
              [] md1).2 id2 ty2 ac2 in2 p [] md2).2.pending.erase
              t1.task_id,
            in_progress := setAdd (add_task (add_task emptyTaskQueue id1
              ty1 ac1 in1 p [] md1).2 id2 ty2 ac2 in2 p []
              md2).2.in_progress t1.task_id }) := by
    apply get_next_task_eq
    · show heappop (heappush [t1] t2) = (some t1, [t2])
      rw [heappush_one t1 t2 hp21]
      exact heappop_two t1 t2
    · show alookup (aset (aset [] id1 t1) id2 t2) id1 = some t1
      rw [alookup_aset_ne _ id2 id1 t2 h21, alookup_aset_self]
  have g2b : get_next_task (get_next_task (add_task (add_task
      emptyTaskQueue id1 ty1 ac1 in1 p [] md1).2 id2 ty2 ac2 in2 p []
      md2).2).2 = (some t2.start,
        { (get_next_task (add_task (add_task emptyTaskQueue id1 ty1 ac1 in1
            p [] md1).2 id2 ty2 ac2 in2 p [] md2).2).2 with
            queue := ([] : List Task),
            tasks := (aupdate (get_next_task (add_task (add_task
              emptyTaskQueue id1 ty1 ac1 in1 p [] md1).2 id2 ty2 ac2 in2 p
              [] md2).2).2.tasks t2.task_id (fun _ => t2.start)),
            pending := (get_next_task (add_task (add_task emptyTaskQueue
              id1 ty1 ac1 in1 p [] md1).2 id2 ty2 ac2 in2 p []
              md2).2).2.pending.erase t2.task_id,
            in_progress := setAdd (get_next_task (add_task (add_task
              emptyTaskQueue id1 ty1 ac1 in1 p [] md1).2 id2 ty2 ac2 in2 p
              [] md2).2).2.in_progress t2.task_id }) := by
    apply get_next_task_eq
    · rw [g2a]
      exact heappop_one t2
    · rw [g2a]
      show alookup (aupdate (aset (aset [] id1 t1) id2 t2) id1
        (fun _ => t1.start)) id2 = some t2
      rw [alookup_aupdate_ne _ id1 id2 _ h12, alookup_aset_self]
  -- three tasks
  have g3a : get_next_task (add_task (add_task (add_task emptyTaskQueue id1
      ty1 ac1 in1 p [] md1).2 id2 ty2 ac2 in2 p [] md2).2 id3 ty3 ac3 in3 p
      [] md3).2 = (some t1.start,
        { (add_task (add_task (add_task emptyTaskQueue id1 ty1 ac1 in1 p []
            md1).2 id2 ty2 ac2 in2 p [] md2).2 id3 ty3 ac3 in3 p []
            md3).2 with
            queue := [t2, t3],
            tasks := (aupdate (add_task (add_task (add_task emptyTaskQueue
              id1 ty1 ac1 in1 p [] md1).2 id2 ty2 ac2 in2 p [] md2).2 id3
              ty3 ac3 in3 p [] md3).2.tasks t1.task_id
              (fun _ => t1.start)),
            pending := (add_task (add_task (add_task emptyTaskQueue id1 ty1
              ac1 in1 p [] md1).2 id2 ty2 ac2 in2 p [] md2).2 id3 ty3 ac3
              in3 p [] md3).2.pending.erase t1.task_id,
            in_progress := setAdd (add_task (add_task (add_task
              emptyTaskQueue id1 ty1 ac1 in1 p [] md1).2 id2 ty2 ac2 in2 p
              [] md2).2 id3 ty3 ac3 in3 p [] md3).2.in_progress
              t1.task_id }) := by
    apply get_next_task_eq
    · show heappop (heappush (heappush [t1] t2) t3) = (some t1, [t2, t3])
      rw [heappush_one t1 t2 hp21, heappush_two t1 t2 t3 hp31]
      exact heappop_three t1 t2 t3 hp32
    · show alookup (aset (aset (aset [] id1 t1) id2 t2) id3 t3) id1 =
        some t1
      rw [alookup_aset_ne _ id3 id1 t3 h31, alookup_aset_ne _ id2 id1 t2
        h21, alookup_aset_self]
  have g3b : get_next_task (get_next_task (add_task (add_task (add_task
      emptyTaskQueue id1 ty1 ac1 in1 p [] md1).2 id2 ty2 ac2 in2 p []
      md2).2 id3 ty3 ac3 in3 p [] md3).2).2 = (some t2.start,
        { (get_next_task (add_task (add_task (add_task emptyTaskQueue id1
            ty1 ac1 in1 p [] md1).2 id2 ty2 ac2 in2 p [] md2).2 id3 ty3 ac3
            in3 p [] md3).2).2 with
            queue := [t3],
            tasks := (aupdate (get_next_task (add_task (add_task (add_task
              emptyTaskQueue id1 ty1 ac1 in1 p [] md1).2 id2 ty2 ac2 in2 p
              [] md2).2 id3 ty3 ac3 in3 p [] md3).2).2.tasks t2.task_id
              (fun _ => t2.start)),
            pending := (get_next_task (add_task (add_task (add_task
              emptyTaskQueue id1 ty1 ac1 in1 p [] md1).2 id2 ty2 ac2 in2 p
              [] md2).2 id3 ty3 ac3 in3 p [] md3).2).2.pending.erase
              t2.task_id,
            in_progress := setAdd (get_next_task (add_task (add_task
              (add_task emptyTaskQueue id1 ty1 ac1 in1 p [] md1).2 id2 ty2
              ac2 in2 p [] md2).2 id3 ty3 ac3 in3 p []
              md3).2).2.in_progress t2.task_id }) := by
    apply get_next_task_eq
    · rw [g3a]
      exact heappop_two t2 t3
    · rw [g3a]
      show alookup (aupdate (aset (aset (aset [] id1 t1) id2 t2) id3 t3)
        id1 (fun _ => t1.start)) id2 = some t2
      rw [alookup_aupdate_ne _ id1 id2 _ h12, alookup_aset_ne _ id3 id2 t3
        h32, alookup_aset_self]
  have g3c : get_next_task (get_next_task (get_next_task (add_task
      (add_task (add_task emptyTaskQueue id1 ty1 ac1 in1 p [] md1).2 id2
      ty2 ac2 in2 p [] md2).2 id3 ty3 ac3 in3 p [] md3).2).2).2 =
      (some t3.start,
        { (get_next_task (get_next_task (add_task (add_task (add_task
            emptyTaskQueue id1 ty1 ac1 in1 p [] md1).2 id2 ty2 ac2 in2 p []
            md2).2 id3 ty3 ac3 in3 p [] md3).2).2).2 with
            queue := ([] : List Task),
            tasks := (aupdate (get_next_task (get_next_task (add_task
              (add_task (add_task emptyTaskQueue id1 ty1 ac1 in1 p []
              md1).2 id2 ty2 ac2 in2 p [] md2).2 id3 ty3 ac3 in3 p []
              md3).2).2).2.tasks t3.task_id (fun _ => t3.start)),
            pending := (get_next_task (get_next_task (add_task (add_task
              (add_task emptyTaskQueue id1 ty1 ac1 in1 p [] md1).2 id2 ty2
              ac2 in2 p [] md2).2 id3 ty3 ac3 in3 p []
              md3).2).2).2.pending.erase t3.task_id,
            in_progress := setAdd (get_next_task (get_next_task (add_task
              (add_task (add_task emptyTaskQueue id1 ty1 ac1 in1 p []
              md1).2 id2 ty2 ac2 in2 p [] md2).2 id3 ty3 ac3 in3 p []
              md3).2).2).2.in_progress t3.task_id }) := by
    apply get_next_task_eq
    · rw [g3b]
      exact heappop_one t3
    · rw [g3b, g3a]
      show alookup (aupdate (aupdate (aset (aset (aset [] id1 t1) id2 t2)
        id3 t3) id1 (fun _ => t1.start)) id2 (fun _ => t2.start)) id3 =
        some t3
      rw [alookup_aupdate_ne _ id2 id3 _ h23, alookup_aupdate_ne _ id1 id3
        _ h13, alookup_aset_self]
  refine ⟨?_, ⟨?_, ?_⟩, ?_, ?_, ?_⟩
  · rw [g1a, ht1]; rfl
  · rw [g2a, ht1]; rfl
  · rw [g2b, ht2]; rfl
  · rw [g3a, ht1]; rfl
  · rw [g3b, ht2]; rfl
  · rw [g3c, ht3]; rfl



/-- Witness for C2's amended theorem at concrete inputs. -/
theorem queue_fifo_up_to_three_witness :
    (get_next_task (add_task emptyTaskQueue "a" "T" "go" "" 2 []
      []).2).1.map Task.task_id = some "a" ∧
    (get_next_task (get_next_task (add_task (add_task (add_task
      emptyTaskQueue "a" "T" "go" "" 2 [] []).2 "b" "T" "go" "" 2 []
      []).2 "c" "T" "go" "" 2 [] []).2).2).1.map Task.task_id = some "b" :=
  ⟨(queue_fifo_up_to_three 2 "a" "b" "c" "T" "T" "T" "go" "go" "go" "" ""
      "" [] [] [] (by decide) (by decide) (by decide)).1,
   (queue_fifo_up_to_three 2 "a" "b" "c" "T" "T" "T" "go" "go" "go" "" ""
      "" [] [] [] (by decide) (by decide) (by decide)).2.2.2.1⟩

/-- Counterexample to C2 as stated: four equal-priority tasks inserted in
order t1,t2,t3,t4 are returned t1,t3,t2,t4 — the second pop yields t3, not
t2, so FIFO among equal priorities fails for sequences of length four. -/
theorem queue_fifo_counterexample :
    ((get_next_task (add_task (add_task (add_task (add_task emptyTaskQueue
        "t1" "T" "go" "" 2 [] []).2 "t2" "T" "go" "" 2 [] []).2 "t3" "T"
        "go" "" 2 [] []).2 "t4" "T" "go" "" 2 [] []).2).1.map Task.task_id
      = some "t1") ∧
    ((get_next_task (get_next_task (add_task (add_task (add_task (add_task
        emptyTaskQueue "t1" "T" "go" "" 2 [] []).2 "t2" "T" "go" "" 2 []
        []).2 "t3" "T" "go" "" 2 [] []).2 "t4" "T" "go" "" 2 []
        []).2).2).1.map Task.task_id = some "t3") ∧
    some "t3" ≠ some "t2" := by
  refine ⟨by decide, by decide, by decide⟩

/-! ## Heap permutation lemmas (towards claims about retrievability) -/


theorem getD_cons_set_perm : ∀ (t : List Task) (j : Nat) (x d : Task),
    j < t.length → (t.getD j d :: t.set j x).Perm (x :: t)
  | [], j, x, d, h => by cases h
  | b :: t2, 0, x, d, _ => List.Perm.swap x b t2
  | b :: t2, m + 1, x, d, h => by
      have hm : m < t2.length := by simpa using h
      have h1 : (t2.getD m d :: b :: t2.set m x).Perm
          (b :: t2.getD m d :: t2.set m x) := List.Perm.swap b _ _
      have h2 : (b :: t2.getD m d :: t2.set m x).Perm (b :: x :: t2) :=
        (getD_cons_set_perm t2 m x d hm).cons b
      have h3 : (b :: x :: t2).Perm (x :: b :: t2) := List.Perm.swap x b t2
      exact h1.trans (h2.trans h3)

theorem set_comm_perm : ∀ (t : List Task) (m : Nat) (x a : Task),
    m < t.length → (x :: t.set m a).Perm (a :: t.set m x)
  | [], m, x, a, h => by cases h
  | b :: t2, 0, x, a, _ => by
      have h1 : (x :: a :: t2).Perm (a :: x :: t2) := List.Perm.swap a x t2
      exact h1
  | b :: t2, k + 1, x, a, h => by
      have hk : k < t2.length := by simpa using h
      have h1 : (x :: b :: t2.set k a).Perm (b :: x :: t2.set k a) :=
        List.Perm.swap b x _
      have h2 : (b :: x :: t2.set k a).Perm (b :: a :: t2.set k x) :=
        (set_comm_perm t2 k x a hk).cons b
      have h3 : (b :: a :: t2.set k x).Perm (a :: b :: t2.set k x) :=
        List.Perm.swap a b _
      exact h1.trans (h2.trans h3)

theorem set_set_getD_perm : ∀ (l : List Task) (i j : Nat) (x d : Task),
    i < l.length → j < l.length → i ≠ j →
    ((l.set i (l.getD j d)).set j x).Perm (l.set i x)
  | [], i, j, x, d, hi, _, _ => by cases hi
  | a :: t, 0, 0, x, d, _, _, hij => absurd rfl hij
  | a :: t, 0, m + 1, x, d, _, hj, _ => by
      have hm : m < t.length := by simpa using hj
      exact getD_cons_set_perm t m x d hm
  | a :: t, m + 1, 0, x, d, hi, _, _ => by
      have hm : m < t.length := by simpa using hi
      exact set_comm_perm t m x a hm
  | a :: t, m + 1, k + 1, x, d, hi, hj, hij => by
      have hm : m < t.length := by simpa using hi
      have hk : k < t.length := by simpa using hj
      have hmk : m ≠ k := fun hcon => hij (by rw [hcon])
      exact (set_set_getD_perm t m k x d hm hk hmk).cons a

theorem siftdownLoop_perm : ∀ (fuel : Nat) (l : List Task) (s pos : Nat)
    (item : Task), pos < l.length →
    (siftdownLoop l s pos item fuel).Perm (l.set pos item)
  | 0, l, s, pos, item, _ => List.Perm.refl _
  | fuel + 1, l, s, pos, item, hpos => by
      unfold siftdownLoop
      by_cases hs : s < pos
      · rw [if_pos hs]
        by_cases hlt : taskLT item (l.getD ((pos - 1) / 2) default) = true
        · rw [if_pos hlt]
          have hpp : (pos - 1) / 2 < pos := by
            have h1 : (pos - 1) / 2 ≤ pos - 1 := Nat.div_le_self _ _
            omega
          have hpl : (pos - 1) / 2 < l.length := lt_trans hpp hpos
          have hrec := siftdownLoop_perm fuel
            (l.set pos (l.getD ((pos - 1) / 2) default)) s ((pos - 1) / 2)
            item (by simpa using hpl)
          refine hrec.trans ?_
          exact set_set_getD_perm l pos ((pos - 1) / 2) item default hpos
            hpl (by omega)
        · rw [if_neg hlt]
      · rw [if_neg hs]

theorem siftupLoop_len_pos : ∀ (fuel : Nat) (l : List Task) (pos : Nat),
    pos < l.length →
    (siftupLoop l pos fuel).1.length = l.length ∧
    (siftupLoop l pos fuel).2 < (siftupLoop l pos fuel).1.length
  | 0, l, pos, hpos => ⟨rfl, hpos⟩
  | fuel + 1, l, pos, hpos => by
      unfold siftupLoop
      by_cases hc : 2 * pos + 1 < l.length
      · rw [if_pos hc]
        have hcp : (if 2 * pos + 1 + 1 < l.length ∧
            ¬ taskLT (l.getD (2 * pos + 1) default)
              (l.getD (2 * pos + 1 + 1) default) = true
            then 2 * pos + 1 + 1 else 2 * pos + 1) < l.length := by
          by_cases hr : 2 * pos + 1 + 1 < l.length ∧
              ¬ taskLT (l.getD (2 * pos + 1) default)
                (l.getD (2 * pos + 1 + 1) default) = true
          · rw [if_pos hr]; exact hr.1
          · rw [if_neg hr]; exact hc
        have := siftupLoop_len_pos fuel
          (l.set pos (l.getD (if 2 * pos + 1 + 1 < l.length ∧
            ¬ taskLT (l.getD (2 * pos + 1) default)
              (l.getD (2 * pos + 1 + 1) default) = true
            then 2 * pos + 1 + 1 else 2 * pos + 1) default))
          (if 2 * pos + 1 + 1 < l.length ∧
            ¬ taskLT (l.getD (2 * pos + 1) default)
              (l.getD (2 * pos + 1 + 1) default) = true
            then 2 * pos + 1 + 1 else 2 * pos + 1)
          (by simpa using hcp)
        simpa using this
      · rw [if_neg hc]
        exact ⟨rfl, hpos⟩

theorem siftupLoop_perm : ∀ (fuel : Nat) (l : List Task) (pos : Nat)
    (x : Task), pos < l.length →
    ((siftupLoop l pos fuel).1.set (siftupLoop l pos fuel).2 x).Perm
      (l.set pos x)
  | 0, l, pos, x, _ => List.Perm.refl _
  | fuel + 1, l, pos, x, hpos => by
      unfold siftupLoop
      by_cases hc : 2 * pos + 1 < l.length
      · rw [if_pos hc]
        have hcp : (if 2 * pos + 1 + 1 < l.length ∧
            ¬ taskLT (l.getD (2 * pos + 1) default)
              (l.getD (2 * pos + 1 + 1) default) = true
            then 2 * pos + 1 + 1 else 2 * pos + 1) < l.length := by
          by_cases hr : 2 * pos + 1 + 1 < l.length ∧
              ¬ taskLT (l.getD (2 * pos + 1) default)
                (l.getD (2 * pos + 1 + 1) default) = true
          · rw [if_pos hr]; exact hr.1
          · rw [if_neg hr]; exact hc
        have hne : pos ≠ (if 2 * pos + 1 + 1 < l.length ∧
            ¬ taskLT (l.getD (2 * pos + 1) default)
              (l.getD (2 * pos + 1 + 1) default) = true
            then 2 * pos + 1 + 1 else 2 * pos + 1) := by
          by_cases hr : 2 * pos + 1 + 1 < l.length ∧
              ¬ taskLT (l.getD (2 * pos + 1) default)
                (l.getD (2 * pos + 1 + 1) default) = true
          · rw [if_pos hr]; omega
          · rw [if_neg hr]; omega
        have hrec := siftupLoop_perm fuel
          (l.set pos (l.getD (if 2 * pos + 1 + 1 < l.length ∧
            ¬ taskLT (l.getD (2 * pos + 1) default)
              (l.getD (2 * pos + 1 + 1) default) = true
            then 2 * pos + 1 + 1 else 2 * pos + 1) default))
          (if 2 * pos + 1 + 1 < l.length ∧
            ¬ taskLT (l.getD (2 * pos + 1) default)
              (l.getD (2 * pos + 1 + 1) default) = true
            then 2 * pos + 1 + 1 else 2 * pos + 1) x
          (by simpa using hcp)
        refine hrec.trans ?_
        exact set_set_getD_perm l pos _ x default hpos hcp hne
      · rw [if_neg hc]

theorem setLast_append : ∀ (l : List Task) (a b : Task),
    (l ++ [a]).set l.length b = l ++ [b]
  | [], a, b => rfl
  | c :: t, a, b => by
      show c :: ((t ++ [a]).set t.length b) = c :: (t ++ [b])
      rw [setLast_append t a b]

theorem heappush_perm (l : List Task) (t : Task) :
    (heappush l t).Perm (l ++ [t]) := by
  unfold heappush
  have hlen : l.length < (l ++ [t]).length := by simp
  have := siftdownLoop_perm l.length (l ++ [t]) 0 l.length t hlen
  rw [setLast_append l t t] at this
  exact this

theorem mem_heappush {l : List Task} {t e : Task} (h : e ∈ heappush l t) :
    e ∈ l ∨ e = t := by
  have := (heappush_perm l t).mem_iff.1 h
  simpa using this

theorem heappop_perm {l rest : List Task} {t : Task}
    (h : heappop l = (some t, rest)) : (t :: rest).Perm l := by
  unfold heappop at h
  cases hl : l.getLast? with
  | none => rw [hl] at h; cases h
  | some lastelt =>
      rw [hl] at h
      simp only at h
      have hsplit : l.dropLast ++ [lastelt] = l :=
        List.dropLast_append_getLast? lastelt hl
      by_cases he : l.dropLast.isEmpty
      · rw [if_pos he] at h
        injection h with h1 h2
        cases h1
        have hnil : l.dropLast = [] := List.isEmpty_iff.1 he
        rw [← h2, hnil]
        rw [hnil] at hsplit
        rw [← hsplit]
        exact List.Perm.refl _
      · rw [if_neg he] at h
        injection h with h1 h2
        cases h1
        have hD : 0 < l.dropLast.length := by
          cases hcase : l.dropLast with
          | nil => rw [hcase] at he; simp at he
          | cons a t2 => simp [hcase]
        have h0 : 0 < (l.dropLast.set 0 lastelt).length := by
          simpa using hD
        have hspec := siftupLoop_len_pos (l.dropLast.set 0 lastelt).length
          (l.dropLast.set 0 lastelt) 0 h0
        have hpos2 : (siftupLoop (l.dropLast.set 0 lastelt) 0
            (l.dropLast.set 0 lastelt).length).2 <
            ((siftupLoop (l.dropLast.set 0 lastelt) 0
              (l.dropLast.set 0 lastelt).length).1.set
              (siftupLoop (l.dropLast.set 0 lastelt) 0
                (l.dropLast.set 0 lastelt).length).2 lastelt).length :=
          lt_of_lt_of_eq hspec.2 (List.length_set _ _ _).symm
        have p1 := siftdownLoop_perm
          (siftupLoop (l.dropLast.set 0 lastelt) 0
            (l.dropLast.set 0 lastelt).length).2
          ((siftupLoop (l.dropLast.set 0 lastelt) 0
            (l.dropLast.set 0 lastelt).length).1.set
            (siftupLoop (l.dropLast.set 0 lastelt) 0
              (l.dropLast.set 0 lastelt).length).2 lastelt)
          0
          (siftupLoop (l.dropLast.set 0 lastelt) 0
            (l.dropLast.set 0 lastelt).length).2
          lastelt hpos2
        rw [List.set_set] at p1
        have p2 := siftupLoop_perm (l.dropLast.set 0 lastelt).length
          (l.dropLast.set 0 lastelt) 0 lastelt h0
        rw [List.set_set] at p2
        have hrest : rest.Perm (l.dropLast.set 0 lastelt) := by
          rw [← h2]
          exact (p1.trans p2)
        have hcons : (l.dropLast.getD 0 default :: rest).Perm
            (l.dropLast.getD 0 default :: l.dropLast.set 0 lastelt) :=
          hrest.cons _
        have hswap : (l.dropLast.getD 0 default ::
            l.dropLast.set 0 lastelt).Perm (lastelt :: l.dropLast) :=
          getD_cons_set_perm l.dropLast 0 lastelt default hD
        have happ : (lastelt :: l.dropLast).Perm
            (l.dropLast ++ [lastelt]) :=
          (List.perm_append_singleton _ _).symm
        have hlast : (l.dropLast ++ [lastelt]).Perm l := by rw [hsplit]
        exact ((hcons.trans hswap).trans happ).trans hlast

theorem heappop_some {l : List Task} (h : l ≠ []) :
    ∃ t rest, heappop l = (some t, rest) := by
  unfold heappop
  cases hl : l.getLast? with
  | none =>
      rw [List.getLast?_eq_none_iff] at hl
      exact absurd hl h
  | some lastelt =>
      simp only
      by_cases he : l.dropLast.isEmpty
      · rw [if_pos he]
        exact ⟨lastelt, l.dropLast, rfl⟩
      · rw [if_neg he]
        exact ⟨l.dropLast.getD 0 default, _, rfl⟩

theorem heappop_length {l rest : List Task} {t : Task}
    (h : heappop l = (some t, rest)) : rest.length + 1 = l.length := by
  have := (heappop_perm h).length_eq
  simpa using this

theorem mem_aset {α : Type} {m : List (String × α)} {k : String} {v : α}
    {p2 : String × α} (h : p2 ∈ aset m k v) : p2 ∈ m ∨ p2 = (k, v) := by
  induction m with
  | nil => simpa [aset] using h
  | cons q rest ih =>
      obtain ⟨k2, v2⟩ := q
      by_cases hk : k2 = k
      · rw [show aset ((k2, v2) :: rest) k v = (k, v) :: rest from by
          simp [aset, hk]] at h
        rcases List.mem_cons.1 h with rfl | hm
        · exact Or.inr rfl
        · exact Or.inl (List.mem_cons_of_mem _ hm)
      · rw [show aset ((k2, v2) :: rest) k v = (k2, v2) :: aset rest k v
          from by simp [aset, hk]] at h
        rcases List.mem_cons.1 h with rfl | hm
        · exact Or.inl (List.mem_cons_self _ _)
        · rcases ih hm with hm2 | hm2
          · exact Or.inl (List.mem_cons_of_mem _ hm2)
          · exact Or.inr hm2

theorem mem_aupdate {α : Type} {m : List (String × α)} {k : String}
    {f : α → α} {p2 : String × α} (h : p2 ∈ aupdate m k f) :
    p2 ∈ m ∨ ∃ v, (k, v) ∈ m ∧ p2 = (k, f v) := by
  induction m with
  | nil => simpa [aupdate] using h
  | cons q rest ih =>
      obtain ⟨k2, v2⟩ := q
      by_cases hk : k2 = k
      · subst hk
        rw [show aupdate ((k2, v2) :: rest) k2 f = (k2, f v2) :: rest from
          by simp [aupdate]] at h
        rcases List.mem_cons.1 h with rfl | hm
        · exact Or.inr ⟨v2, List.mem_cons_self _ _, rfl⟩
        · exact Or.inl (List.mem_cons_of_mem _ hm)
      · rw [show aupdate ((k2, v2) :: rest) k f = (k2, v2) :: aupdate rest
          k f from by simp [aupdate, hk]] at h
        rcases List.mem_cons.1 h with rfl | hm
        · exact Or.inl (List.mem_cons_self _ _)
        · rcases ih hm with hm2 | ⟨v, hv, rfl⟩
          · exact Or.inl (List.mem_cons_of_mem _ hm2)
          · exact Or.inr ⟨v, List.mem_cons_of_mem _ hv, rfl⟩

theorem canExec_iff (c : List String) (t : Task) :
    canExec c t = true ↔ ∀ d ∈ t.dependencies, d ∈ c := by
  simp [canExec, List.all_eq_true]

/-! State machine alphabet for the `TaskQueue` claims. -/

inductive QOp where
  | add (task_id agent_type action input_data : String) (priority : Int)
        (dependencies : List String) (metadata : List (String × String))
  | next
  | complete (task_id res : String)
  | failTask (task_id err : String)
  | cancel (task_id : String)
  | clear
deriving Repr, DecidableEq

def qStep (q : TaskQueue) : QOp → TaskQueue
  | QOp.add id ty ac inp p deps md => (add_task q id ty ac inp p deps md).2
  | QOp.next => (get_next_task q).2
  | QOp.complete id res => complete_task q id res
  | QOp.failTask id err => fail_task q id err
  | QOp.cancel id => cancel_task q id
  | QOp.clear => clearQueue q

/-- Queue states reachable through the `TaskQueue` API; `add_task` ids are
fresh, as the `uuid4` ids of the source are. -/
inductive QReachable : TaskQueue → Prop
  | init : QReachable emptyTaskQueue
  | add {q : TaskQueue} (h : QReachable q) (id ty ac inp : String) (p : Int)
      (deps : List String) (md : List (String × String))
      (fresh : alookup q.tasks id = none) :
      QReachable (add_task q id ty ac inp p deps md).2
  | next {q : TaskQueue} (h : QReachable q) :
      QReachable (get_next_task q).2
  | complete {q : TaskQueue} (h : QReachable q) (id res : String) :
      QReachable (complete_task q id res)
  | failStep {q : TaskQueue} (h : QReachable q) (id err : String) :
      QReachable (fail_task q id err)
  | cancelStep {q : TaskQueue} (h : QReachable q) (id : String) :
      QReachable (cancel_task q id)
  | clearStep {q : TaskQueue} (h : QReachable q) :
      QReachable (clearQueue q)

/-- The dependency-gating invariant of reachable queue states: every task
sitting in the priority heap has all its dependencies completed, the heap
entry agrees with the task table on its dependency list, and the task table
binds every id to a task carrying that id. -/
structure QInv (q : TaskQueue) : Prop where
  heap_deps : ∀ e ∈ q.queue, ∀ d ∈ e.dependencies, d ∈ q.completed
  heap_dict : ∀ e ∈ q.queue, ∃ cur, alookup q.tasks e.task_id = some cur ∧
    cur.dependencies = e.dependencies
  ids : ∀ p2 ∈ q.tasks, (Prod.snd p2).task_id = Prod.fst p2

theorem add_task_eq (q : TaskQueue) (id ty ac inp : String) (p : Int)
    (deps : List String) (md : List (String × String)) :
    (add_task q id ty ac inp p deps md).2 =
      (if canExec q.completed
          ⟨p, id, ty, ac, inp, deps, md, TaskStatus.pending, none, none⟩ then
        { q with queue := (heappush q.queue
            ⟨p, id, ty, ac, inp, deps, md, TaskStatus.pending, none, none⟩),
                 tasks := (aset q.tasks id
            ⟨p, id, ty, ac, inp, deps, md, TaskStatus.pending, none, none⟩),
                 pending := setAdd q.pending id,
                 stats_total := q.stats_total + 1 }
      else
        { q with tasks := (aset q.tasks id
            ⟨p, id, ty, ac, inp, deps, md, TaskStatus.pending, none, none⟩),
                 pending := setAdd q.pending id,
                 stats_total := q.stats_total + 1 }) := by
  unfold add_task
  by_cases hce : canExec q.completed
      ⟨p, id, ty, ac, inp, deps, md, TaskStatus.pending, none, none⟩ = true
  · simp [hce]
  · simp [hce]

theorem QInv_add (q : TaskQueue) (id ty ac inp : String) (p : Int)
    (deps : List String) (md : List (String × String)) (hq : QInv q)
    (fresh : alookup q.tasks id = none) :
    QInv (add_task q id ty ac inp p deps md).2 := by
  rw [add_task_eq]
  set t : Task := ⟨p, id, ty, ac, inp, deps, md, TaskStatus.pending, none,
    none⟩ with ht
  have hids2 : ∀ p2 ∈ aset q.tasks id t, (Prod.snd p2).task_id =
      Prod.fst p2 := by
    intro p2 hp2
    rcases mem_aset hp2 with hm | rfl
    · exact hq.ids p2 hm
    · rfl
  have hdict2 : ∀ e ∈ q.queue, ∃ cur, alookup (aset q.tasks id t)
      e.task_id = some cur ∧ cur.dependencies = e.dependencies := by
    intro e he
    obtain ⟨cur, hcur, hdeps⟩ := hq.heap_dict e he
    have hne : id ≠ e.task_id := by
      intro hcon
      rw [← hcon] at hcur
      rw [fresh] at hcur
      cases hcur
    exact ⟨cur, by rw [alookup_aset_ne q.tasks id e.task_id t hne]; exact
      hcur, hdeps⟩
  by_cases hce : canExec q.completed t = true
  · rw [if_pos hce]
    refine ⟨?_, ?_, ?_⟩
    · intro e he d hd
      rcases mem_heappush he with hm | rfl
      · exact hq.heap_deps e hm d hd
      · exact (canExec_iff q.completed t).1 hce d hd
    · intro e he
      rcases mem_heappush he with hm | rfl
      · exact hdict2 e hm
      · exact ⟨t, by
          show alookup (aset q.tasks id t) id = some t
          exact alookup_aset_self q.tasks id t, rfl⟩
    · exact hids2
  · rw [if_neg hce]
    exact ⟨fun e he d hd => hq.heap_deps e he d hd, hdict2, hids2⟩

theorem QInv_next (q : TaskQueue) (hq : QInv q) :
    QInv (get_next_task q).2 := by
  unfold get_next_task
  cases hp : heappop q.queue with
  | mk opt rest =>
      cases opt with
      | none => exact hq
      | some e =>
          simp only
          have hperm := heappop_perm hp
          have hmemrest : ∀ x ∈ rest, x ∈ q.queue := fun x hx =>
            hperm.mem_iff.1 (List.mem_cons_of_mem _ hx)
          set t : Task := (match alookup q.tasks e.task_id with
            | some cur => cur
            | none => e).start with htdef
          have htid : t.task_id = e.task_id := by
            rw [htdef]
            cases hl : alookup q.tasks e.task_id with
            | none => rfl
            | some cur =>
                simp only [hl]
                exact hq.ids (e.task_id, cur) (alookup_mem hl)
          refine ⟨?_, ?_, ?_⟩
          · intro x hx d hd
            exact hq.heap_deps x (hmemrest x hx) d hd
          · intro x hx
            obtain ⟨cur, hcur, hdeps⟩ := hq.heap_dict x (hmemrest x hx)
            by_cases hxe : e.task_id = x.task_id
            · refine ⟨t, ?_, ?_⟩
              · show alookup (aupdate q.tasks e.task_id (fun _ => t))
                  x.task_id = some t
                rw [← hxe, alookup_aupdate_self]
                rw [← hxe] at hcur
                rw [hcur]
                rfl
              · rw [htdef]
                rw [← hxe] at hcur
                simp only [hcur]
                show cur.dependencies = x.dependencies
                exact hdeps
            · refine ⟨cur, ?_, hdeps⟩
              show alookup (aupdate q.tasks e.task_id (fun _ => t))
                x.task_id = some cur
              rw [alookup_aupdate_ne q.tasks e.task_id x.task_id _ hxe]
              exact hcur
          · intro p2 hp2
            rcases mem_aupdate hp2 with hm | ⟨v, _, rfl⟩
            · exact hq.ids p2 hm
            · exact htid

theorem checkDependentsFold_entries (tasks : List (String × Task))
    (c : List String) (cid : String) :
    ∀ (pids : List String) (heap : List Task) (e : Task),
      e ∈ checkDependentsFold tasks c cid pids heap →
      e ∈ heap ∨ (∃ pid, alookup tasks pid = some e ∧
        canExec c e = true) := by
  intro pids
  induction pids with
  | nil => intro heap e he; exact Or.inl he
  | cons pid rest ih =>
      intro heap e he
      unfold checkDependentsFold at he
      cases hl : alookup tasks pid with
      | none =>
          rw [hl] at he
          exact ih heap e he
      | some task =>
          rw [hl] at he
          simp only at he
          by_cases hcond : cid ∈ task.dependencies ∧ canExec c task = true
          · rw [if_pos hcond] at he
            rcases ih _ e he with hm | hex
            · rcases mem_heappush hm with hm2 | rfl
              · exact Or.inl hm2
              · exact Or.inr ⟨pid, hl, hcond.2⟩
            · exact Or.inr hex
          · rw [if_neg hcond] at he
            exact ih heap e he

theorem checkDependentsFold_mono (tasks : List (String × Task))
    (c : List String) (cid : String) :
    ∀ (pids : List String) (heap : List Task) (e : Task), e ∈ heap →
      e ∈ checkDependentsFold tasks c cid pids heap := by
  intro pids
  induction pids with
  | nil => intro heap e he; exact he
  | cons pid rest ih =>
      intro heap e he
      unfold checkDependentsFold
      cases hl : alookup tasks pid with
      | none => exact ih heap e he
      | some task =>
          simp only
          by_cases hcond : cid ∈ task.dependencies ∧ canExec c task = true
          · rw [if_pos hcond]
            refine ih _ e ?_
            have := (heappush_perm heap task).mem_iff.2
              (List.mem_append_left _ he)
            exact this
          · rw [if_neg hcond]
            exact ih heap e he

theorem checkDependentsFold_pushes (tasks : List (String × Task))
    (c : List String) (cid : String) :
    ∀ (pids : List String) (heap : List Task) (pid : String) (e : Task),
      pid ∈ pids → alookup tasks pid = some e → cid ∈ e.dependencies →
      canExec c e = true →
      e ∈ checkDependentsFold tasks c cid pids heap := by
  intro pids
  induction pids with
  | nil => intro _ _ _ hm; cases hm
  | cons pid2 rest ih =>
      intro heap pid e hm hl hcid hce
      unfold checkDependentsFold
      rcases List.mem_cons.1 hm with rfl | hm2
      · rw [hl]
        simp only
        rw [if_pos ⟨hcid, hce⟩]
        refine checkDependentsFold_mono tasks c cid rest _ e ?_
        have := (heappush_perm heap e).mem_iff.2
          (List.mem_append_right _ (List.mem_singleton_self e))
        exact this
      · cases hl2 : alookup tasks pid2 with
        | none => exact ih heap pid e hm2 hl hcid hce
        | some task2 =>
            simp only
            by_cases hcond : cid ∈ task2.dependencies ∧
                canExec c task2 = true
            · rw [if_pos hcond]
              exact ih _ pid e hm2 hl hcid hce
            · rw [if_neg hcond]
              exact ih heap pid e hm2 hl hcid hce

theorem QInv_aupdate (q q2 : TaskQueue) (id : String) (v : Task)
    (hq : QInv q) (hqueue : q2.queue = q.queue)
    (hcomp : q2.completed = q.completed)
    (htasks : q2.tasks = aupdate q.tasks id (fun _ => v))
    (hvid : v.task_id = id)
    (hvdeps : ∀ task, alookup q.tasks id = some task →
      v.dependencies = task.dependencies) : QInv q2 := by
  refine ⟨?_, ?_, ?_⟩
  · intro e he d hd
    rw [hqueue] at he
    rw [hcomp]
    exact hq.heap_deps e he d hd
  · intro e he
    rw [hqueue] at he
    obtain ⟨cur, hcur, hdeps⟩ := hq.heap_dict e he
    rw [htasks]
    by_cases hxe : id = e.task_id
    · refine ⟨v, ?_, ?_⟩
      · rw [← hxe, alookup_aupdate_self]
        rw [← hxe] at hcur
        rw [hcur]
        rfl
      · rw [← hxe] at hcur
        rw [hvdeps cur hcur]
        rw [hxe] at hcur
        exact hdeps
    · refine ⟨cur, ?_, hdeps⟩
      rw [alookup_aupdate_ne q.tasks id e.task_id _ hxe]
      exact hcur
  · intro p2 hp2
    rw [htasks] at hp2
    rcases mem_aupdate hp2 with hm | ⟨w, _, rfl⟩
    · exact hq.ids p2 hm
    · exact hvid

theorem QInv_failed (q : TaskQueue) (id err : String) (hq : QInv q) :
    QInv (fail_task q id err) := by
  unfold fail_task
  cases hl : alookup q.tasks id with
  | none => exact hq
  | some task =>
      simp only
      refine QInv_aupdate q _ id (task.fail err) hq rfl rfl rfl ?_ ?_
      · have := hq.ids (id, task) (alookup_mem hl)
        exact this
      · intro task2 hl2
        rw [hl] at hl2
        cases hl2
        rfl

theorem QInv_cancelled (q : TaskQueue) (id : String) (hq : QInv q) :
    QInv (cancel_task q id) := by
  unfold cancel_task
  cases hl : alookup q.tasks id with
  | none => exact hq
  | some task =>
      simp only
      refine QInv_aupdate q _ id task.cancel hq rfl rfl rfl ?_ ?_
      · have := hq.ids (id, task) (alookup_mem hl)
        exact this
      · intro task2 hl2
        rw [hl] at hl2
        cases hl2
        rfl

theorem QInv_cleared (q : TaskQueue) (hq : QInv q) :
    QInv (clearQueue q) := by
  refine ⟨?_, ?_, ?_⟩
  · intro e he; cases he
  · intro e he; cases he
  · intro p2 hp2; cases hp2

theorem QInv_completed (q : TaskQueue) (id res : String) (hq : QInv q) :
    QInv (complete_task q id res) := by
  unfold complete_task
  cases hl : alookup q.tasks id with
  | none => exact hq
  | some task =>
      simp only
      have hidt : task.task_id = id := hq.ids (id, task) (alookup_mem hl)
      have hids2 : ∀ p2 ∈ aupdate q.tasks id (fun _ => task.complete res),
          (Prod.snd p2).task_id = Prod.fst p2 := by
        intro p2 hp2
        rcases mem_aupdate hp2 with hm | ⟨w, _, rfl⟩
        · exact hq.ids p2 hm
        · exact hidt
      refine ⟨?_, ?_, hids2⟩
      · intro e he d hd
        rcases checkDependentsFold_entries _ _ _ _ _ _ he with hm | hex
        · have := hq.heap_deps e hm d hd
          exact (mem_setAdd _ _ _).2 (Or.inl this)
        · obtain ⟨pid, _, hce⟩ := hex
          exact (canExec_iff _ _).1 hce d hd
      · intro e he
        rcases checkDependentsFold_entries _ _ _ _ _ _ he with hm | hex
        · obtain ⟨cur, hcur, hdeps⟩ := hq.heap_dict e hm
          by_cases hxe : id = e.task_id
          · refine ⟨task.complete res, ?_, ?_⟩
            · rw [← hxe, alookup_aupdate_self, hl]
              rfl
            · rw [← hxe] at hcur
              rw [hl] at hcur
              cases hcur
              exact hdeps
          · refine ⟨cur, ?_, hdeps⟩
            rw [alookup_aupdate_ne q.tasks id e.task_id _ hxe]
            exact hcur
        · obtain ⟨pid, hlp, _⟩ := hex
          have hpid : e.task_id = pid := hids2 (pid, e) (alookup_mem hlp)
          exact ⟨e, by rw [hpid]; exact hlp, rfl⟩

theorem QReachable_inv {q : TaskQueue} (h : QReachable q) : QInv q := by
  induction h with
  | init =>
      refine ⟨?_, ?_, ?_⟩
      · intro e he; cases he
      · intro e he; cases he
      · intro p2 hp2; cases hp2
  | add h id ty ac inp p deps md fresh ih =>
      exact QInv_add _ id ty ac inp p deps md ih fresh
  | next h ih => exact QInv_next _ ih
  | complete h id res ih => exact QInv_completed _ id res ih
  | failStep h id err ih => exact QInv_failed _ id err ih
  | cancelStep h id ih => exact QInv_cancelled _ id ih
  | clearStep h ih => exact QInv_cleared _ ih

/-- Repeatedly call `get_next_task`, collecting the returned tasks. -/
def drain : TaskQueue → Nat → List Task
  | _, 0 => []
  | q, n + 1 =>
      match get_next_task q with
      | (none, _) => []
      | (some u, q2) => u :: drain q2 n

theorem get_next_task_some (q : TaskQueue) (e : Task) (rest : List Task)
    (hp : heappop q.queue = (some e, rest)) :
    get_next_task q = (some ((match alookup q.tasks e.task_id with
        | some cur => cur
        | none => e).start),
      { q with queue := rest,
               tasks := (aupdate q.tasks e.task_id (fun _ =>
                 (match alookup q.tasks e.task_id with
                  | some cur => cur
                  | none => e).start)),
               pending := q.pending.erase e.task_id,
               in_progress := setAdd q.in_progress e.task_id }) := by
  unfold get_next_task
  rw [hp]

theorem drain_succ (q : TaskQueue) (n : Nat) (u : Task) (q2 : TaskQueue)
    (h : get_next_task q = (some u, q2)) :
    drain q (n + 1) = u :: drain q2 n := by
  conv_lhs => unfold drain
  rw [h]

theorem drain_stop (q : TaskQueue) (n : Nat) (q2 : TaskQueue)
    (h : get_next_task q = (none, q2)) : drain q (n + 1) = [] := by
  conv_lhs => unfold drain
  rw [h]

theorem drain_ids : ∀ (n : Nat) (q : TaskQueue), q.queue.length ≤ n →
    (∀ p2 ∈ q.tasks, (Prod.snd p2).task_id = Prod.fst p2) →
    ((drain q n).map Task.task_id).Perm (q.queue.map Task.task_id) := by
  intro n
  induction n with
  | zero =>
      intro q hlen _
      have : q.queue = [] := List.length_eq_zero.1 (Nat.le_zero.1 hlen)
      rw [this]
      exact List.Perm.refl _
  | succ n ih =>
      intro q hlen hids
      by_cases hq0 : q.queue = []
      · have hgnt : get_next_task q = (none, q) := by
          unfold get_next_task
          rw [show heappop q.queue = (none, q.queue) from by rw [hq0]; rfl]
        rw [drain_stop q n q hgnt, hq0]
      · obtain ⟨e, rest, hp⟩ := heappop_some hq0
        have hgnt := get_next_task_some q e rest hp
        have huid : ((match alookup q.tasks e.task_id with
            | some cur => cur
            | none => e).start).task_id = e.task_id := by
          cases hl : alookup q.tasks e.task_id with
          | none => rfl
          | some cur =>
              simp only [hl]
              exact hids (e.task_id, cur) (alookup_mem hl)
        have hrestlen : rest.length ≤ n := by
          have := heappop_length hp
          omega
        have hperm2 : (e.task_id :: rest.map Task.task_id).Perm
            (q.queue.map Task.task_id) := by
          simpa using (heappop_perm hp).map Task.task_id
        have hids2 : ∀ p2 ∈ (aupdate q.tasks e.task_id (fun _ =>
            (match alookup q.tasks e.task_id with
             | some cur => cur
             | none => e).start)),
            (Prod.snd p2).task_id = Prod.fst p2 := by
          intro p2 hp2
          rcases mem_aupdate hp2 with hm | ⟨w, _, rfl⟩
          · exact hids p2 hm
          · exact huid
        rw [drain_succ q n _ _ hgnt, List.map_cons, huid]
        refine List.Perm.trans ?_ hperm2
        refine List.Perm.cons e.task_id ?_
        exact ih _ hrestlen hids2

/-! ## Claim C6 -/

/-- C6: in every queue state reachable through the `TaskQueue` API,
`get_next_task` can only ever return a task all of whose dependencies are
completed — so a task with an uncompleted dependency is never returned —
and when `complete_task` is called on the last unmet dependency of a
pending task, that task is pushed back onto the priority queue and is
retrievable: draining the queue with `get_next_task` returns it. -/
theorem dependency_gating (q : TaskQueue) (hq : QReachable q) :
    (∀ u q2 d, get_next_task q = (some u, q2) → d ∈ u.dependencies →
      d ∈ q.completed) ∧
    (∀ id t d res, alookup q.tasks id = some t → id ∈ q.pending →
      d ∈ t.dependencies → d ∉ q.completed →
      (∀ d2 ∈ t.dependencies, d2 = d ∨ d2 ∈ q.completed) →
      (alookup q.tasks d).isSome →
      id ∈ (complete_task q d res).queue.map Task.task_id ∧
      id ∈ (drain (complete_task q d res)
        (complete_task q d res).queue.length).map Task.task_id) := by
  have hinv := QReachable_inv hq
  constructor
  · intro u q2 d hg hd
    unfold get_next_task at hg
    cases hp : heappop q.queue with
    | mk opt rest =>
        rw [hp] at hg
        cases opt with
        | none => simp at hg
        | some e =>
            simp only [Prod.mk.injEq, Option.some.injEq] at hg
            obtain ⟨hu, _⟩ := hg
            have hmem : e ∈ q.queue :=
              (heappop_perm hp).mem_iff.1 (List.mem_cons_self _ _)
            cases hl : alookup q.tasks e.task_id with
            | none =>
                rw [← hu] at hd
                simp only [hl] at hd
                exact hinv.heap_deps e hmem d hd
            | some cur =>
                rw [← hu] at hd
                simp only [hl] at hd
                obtain ⟨cur2, hcur2, hdeps2⟩ := hinv.heap_dict e hmem
                rw [hl] at hcur2
                cases hcur2
                have : d ∈ e.dependencies := by
                  rw [← hdeps2]
                  exact hd
                exact hinv.heap_deps e hmem d this
  · intro id t d res hlt hpend hdep hdnc hlast hsome
    obtain ⟨dt, hld⟩ := Option.isSome_iff_exists.1 hsome
    have hq2 : complete_task q d res =
        { q with
            queue := (checkDependentsFold
              (aupdate q.tasks d (fun _ => dt.complete res))
              (setAdd q.completed d) d q.pending q.queue),
            tasks := (aupdate q.tasks d (fun _ => dt.complete res)),
            in_progress := q.in_progress.erase d,
            completed := setAdd q.completed d,
            stats_completed := q.stats_completed + 1 } := by
      unfold complete_task
      rw [hld]
    have hqinv := QInv_completed q d res hinv
    have hentry : ∃ e2, alookup (aupdate q.tasks d
        (fun _ => dt.complete res)) id = some e2 ∧
        e2.dependencies = t.dependencies := by
      by_cases hide : d = id
      · refine ⟨dt.complete res, ?_, ?_⟩
        · rw [← hide, alookup_aupdate_self, hld]
          rfl
        · rw [← hide] at hlt
          rw [hld] at hlt
          cases hlt
          rfl
      · refine ⟨t, ?_, rfl⟩
        rw [alookup_aupdate_ne q.tasks d id _ hide]
        exact hlt
    obtain ⟨e2, hle2, hdeps2⟩ := hentry
    have hce : canExec (setAdd q.completed d) e2 = true := by
      rw [canExec_iff]
      intro d2 hd2
      rw [hdeps2] at hd2
      rcases hlast d2 hd2 with rfl | hc
      · exact (mem_setAdd _ _ _).2 (Or.inr rfl)
      · exact (mem_setAdd _ _ _).2 (Or.inl hc)
    have hpush : e2 ∈ (complete_task q d res).queue := by
      rw [hq2]
      refine checkDependentsFold_pushes _ _ _ q.pending q.queue id e2
        hpend hle2 ?_ hce
      rw [hdeps2]
      exact hdep
    have hidse2 : e2.task_id = id := by
      have hmem : (id, e2) ∈ (complete_task q d res).tasks := by
        rw [hq2]
        exact alookup_mem hle2
      exact hqinv.ids (id, e2) hmem
    have hmap : id ∈ (complete_task q d res).queue.map Task.task_id :=
      List.mem_map.2 ⟨e2, hpush, hidse2⟩
    refine ⟨hmap, ?_⟩
    have hperm := drain_ids (complete_task q d res).queue.length
      (complete_task q d res) (le_refl _) hqinv.ids
    exact hperm.mem_iff.2 hmap

/-- Witness for C6: task B depends on task A; after `complete_task` on A,
B is in the queue and is returned by draining it. -/
theorem dependency_gating_witness :
    "B" ∈ (complete_task (add_task (add_task emptyTaskQueue "A" "T" "go"
        "" 2 [] []).2 "B" "T" "go" "" 2 ["A"] []).2 "A" "ok").queue.map
      Task.task_id ∧
    "B" ∈ (drain (complete_task (add_task (add_task emptyTaskQueue "A" "T"
        "go" "" 2 [] []).2 "B" "T" "go" "" 2 ["A"] []).2 "A" "ok")
      (complete_task (add_task (add_task emptyTaskQueue "A" "T" "go" "" 2
        [] []).2 "B" "T" "go" "" 2 ["A"] []).2 "A"
        "ok").queue.length).map Task.task_id := by
  have hreach : QReachable (add_task (add_task emptyTaskQueue "A" "T" "go"
      "" 2 [] []).2 "B" "T" "go" "" 2 ["A"] []).2 :=
    QReachable.add (QReachable.add QReachable.init "A" "T" "go" "" 2 [] []
      (by decide)) "B" "T" "go" "" 2 ["A"] [] (by decide)
  exact (dependency_gating _ hreach).2 "B"
    ⟨2, "B", "T", "go", "", ["A"], [], TaskStatus.pending, none, none⟩
    "A" "ok" (by decide) (by decide) (by decide) (by decide) (by decide)
    (by decide)


theorem adjOf_aset_self (gl : List (String × List String)) (k : String)
    (v : List String) : adjOf (aset gl k v) k = v := by
  unfold adjOf
  rw [alookup_aset_self]
  rfl

theorem adjOf_aset_ne (gl : List (String × List String)) (k z : String)
    (v : List String) (h : k ≠ z) : adjOf (aset gl k v) z = adjOf gl z := by
  unfold adjOf
  rw [alookup_aset_ne gl k z v h]

/-- Graphs built only through successful `add_dependency` calls. -/
inductive BuiltByAddDependency : DependencyGraph → Prop
  | empty : BuiltByAddDependency emptyGraph
  | step {g g2 : DependencyGraph} {n d : String}
      (h : BuiltByAddDependency g) (hok : add_dependency g n d = (none, g2)) :
      BuiltByAddDependency g2

theorem add_dependency_ok_elim {g g2 : DependencyGraph} {n d : String}
    (h : add_dependency g n d = (none, g2)) :
    would_create_cycle (add_node (add_node g n) d) n d = false ∧
    g2 = { add_node (add_node g n) d with
           graph := (aset (add_node (add_node g n) d).graph n
             (setAdd (adjOf (add_node (add_node g n) d).graph n) d)),
           reverse_graph := (aset (add_node (add_node g n) d).reverse_graph
             d (setAdd (adjOf (add_node (add_node g n) d).reverse_graph d)
               n)) } := by
  unfold add_dependency at h
  by_cases hc : would_create_cycle (add_node (add_node g n) d) n d = true
  · rw [if_pos hc] at h
    cases h
  · rw [if_neg hc] at h
    refine ⟨by simpa using hc, ?_⟩
    exact (congrArg Prod.snd h).symm

theorem adjOf_add_dependency {g g2 : DependencyGraph} {n d : String}
    (h : add_dependency g n d = (none, g2)) (z : String) :
    adjOf g2.graph z = if n = z then setAdd (adjOf g.graph n) d
      else adjOf g.graph z := by
  obtain ⟨_, hg2⟩ := add_dependency_ok_elim h
  rw [hg2]
  by_cases hz : n = z
  · subst hz
    show adjOf (aset (add_node (add_node g n) d).graph n
      (setAdd (adjOf (add_node (add_node g n) d).graph n) d)) n = _
    rw [adjOf_aset_self, if_pos rfl, adjOf_add_node_graph,
      adjOf_add_node_graph]
  · show adjOf (aset (add_node (add_node g n) d).graph n
      (setAdd (adjOf (add_node (add_node g n) d).graph n) d)) z = _
    rw [adjOf_aset_ne _ n z _ hz, if_neg hz, adjOf_add_node_graph,
      adjOf_add_node_graph]

theorem radjOf_eq_adjOf (g : DependencyGraph) (z : String) :
    radjOf g z = adjOf g.reverse_graph z := rfl

theorem radjOf_add_dependency {g g2 : DependencyGraph} {n d : String}
    (h : add_dependency g n d = (none, g2)) (z : String) :
    radjOf g2 z = if d = z then setAdd (radjOf g d) n else radjOf g z := by
  obtain ⟨_, hg2⟩ := add_dependency_ok_elim h
  rw [hg2]
  by_cases hz : d = z
  · subst hz
    show adjOf (aset (add_node (add_node g n) d).reverse_graph d
      (setAdd (adjOf (add_node (add_node g n) d).reverse_graph d) n)) d = _
    rw [adjOf_aset_self, if_pos rfl, radjOf_eq_adjOf,
      adjOf_add_node_reverse, adjOf_add_node_reverse]
  · show adjOf (aset (add_node (add_node g n) d).reverse_graph d
      (setAdd (adjOf (add_node (add_node g n) d).reverse_graph d) n)) z = _
    rw [adjOf_aset_ne _ d z _ hz, if_neg hz, radjOf_eq_adjOf,
      adjOf_add_node_reverse, adjOf_add_node_reverse]

theorem nodes_add_dependency {g g2 : DependencyGraph} {n d : String}
    (h : add_dependency g n d = (none, g2)) :
    g2.nodes = setAdd (setAdd g.nodes n) d := by
  obtain ⟨_, hg2⟩ := add_dependency_ok_elim h
  rw [hg2]
  rfl

/-- Structural invariants of graphs built through `add_dependency`. -/
structure GInv (g : DependencyGraph) : Prop where
  nodes_nodup : g.nodes.Nodup
  edges_in_nodes : ∀ n2 d2, d2 ∈ adjOf g.graph n2 →
    n2 ∈ g.nodes ∧ d2 ∈ g.nodes
  adj_nodup : ∀ n2, (adjOf g.graph n2).Nodup
  radj_nodup : ∀ n2, (radjOf g n2).Nodup
  rev_iff : ∀ n2 d2, d2 ∈ adjOf g.graph n2 ↔ n2 ∈ radjOf g d2
  acyclic : ∀ n2 d2, d2 ∈ adjOf g.graph n2 → ¬ ReachesL g.graph d2 n2

theorem reaches_congr_iff {gl1 gl2 : List (String × List String)}
    (hadj : ∀ z, adjOf gl1 z = adjOf gl2 z) (a b : String) :
    ReachesL gl1 a b ↔ ReachesL gl2 a b :=
  ⟨ReachesL.congr hadj, ReachesL.congr (fun z => (hadj z).symm)⟩

theorem reaches_decompose {g g2 : DependencyGraph} {n d : String}
    (h : add_dependency g n d = (none, g2)) :
    ∀ {a b : String}, ReachesL g2.graph a b →
      ReachesL g.graph a b ∨
      (ReachesL g.graph a n ∧ ReachesL g.graph d b) := by
  intro a b hr
  induction hr with
  | refl x => exact Or.inl (ReachesL.refl x)
  | @step x u b2 hedge htail ih =>
      have hadj := adjOf_add_dependency h x
      rw [hadj] at hedge
      by_cases hx : n = x
      · rw [if_pos hx] at hedge
        rcases (mem_setAdd _ _ _).1 hedge with hold | rfl
        · rcases ih with h1 | ⟨h1, h2⟩
          · exact Or.inl (ReachesL.step (hx ▸ hold) h1)
          · exact Or.inr ⟨ReachesL.step (hx ▸ hold) h1, h2⟩
        · rcases ih with h1 | ⟨_, h2⟩
          · exact Or.inr ⟨hx ▸ ReachesL.refl n, h1⟩
          · exact Or.inr ⟨hx ▸ ReachesL.refl n, h2⟩
      · rw [if_neg hx] at hedge
        rcases ih with h1 | ⟨h1, h2⟩
        · exact Or.inl (ReachesL.step hedge h1)
        · exact Or.inr ⟨ReachesL.step hedge h1, h2⟩



theorem built_ginv {g : DependencyGraph} (h : BuiltByAddDependency g) :
    GInv g := by
  induction h with
  | empty =>
      refine ⟨List.nodup_nil, ?_, ?_, ?_, ?_, ?_⟩
      · intro n2 d2 hd2
        cases hd2
      · intro n2
        exact List.nodup_nil
      · intro n2
        exact List.nodup_nil
      · intro n2 d2
        exact ⟨fun h2 => absurd h2 (List.not_mem_nil d2),
          fun h2 => absurd h2 (List.not_mem_nil n2)⟩
      · intro n2 d2 hd2
        cases hd2
  | @step g g2 n d hb hok ih =>
      have hadj := adjOf_add_dependency hok
      have hradj := radjOf_add_dependency hok
      have hnodes := nodes_add_dependency hok
      have hg1adj : ∀ z, adjOf (add_node (add_node g n) d).graph z =
          adjOf g.graph z := by
        intro z
        rw [adjOf_add_node_graph, adjOf_add_node_graph]
      have hok2 := (add_dependency_ok_elim hok).1
      have hnr : ¬ ReachesL g.graph d n := by
        intro hr
        have hc := would_create_cycle_complete (add_node (add_node g n) d)
          n d (ReachesL.congr (fun z => (hg1adj z).symm) hr)
        rw [hok2] at hc
        cases hc
      have hmemn : ∀ x, x ∈ g.nodes → x ∈ g2.nodes := by
        intro x hx
        rw [hnodes]
        exact (mem_setAdd _ _ _).2 (Or.inl ((mem_setAdd _ _ _).2 (Or.inl hx)))
      have hng2 : n ∈ g2.nodes := by
        rw [hnodes]
        exact (mem_setAdd _ _ _).2 (Or.inl ((mem_setAdd _ _ _).2 (Or.inr rfl)))
      have hdg2 : d ∈ g2.nodes := by
        rw [hnodes]
        exact (mem_setAdd _ _ _).2 (Or.inr rfl)
      refine ⟨?_, ?_, ?_, ?_, ?_, ?_⟩
      · rw [hnodes]
        exact nodup_setAdd _ _ (nodup_setAdd _ _ ih.nodes_nodup)
      · intro n2 d2 hd2
        rw [hadj n2] at hd2
        by_cases h1 : n = n2
        · subst h1
          rw [if_pos rfl] at hd2
          rcases (mem_setAdd _ _ _).1 hd2 with hold | rfl
          · exact ⟨hng2, hmemn d2 (ih.edges_in_nodes n d2 hold).2⟩
          · exact ⟨hng2, hdg2⟩
        · rw [if_neg h1] at hd2
          exact ⟨hmemn n2 (ih.edges_in_nodes n2 d2 hd2).1,
            hmemn d2 (ih.edges_in_nodes n2 d2 hd2).2⟩
      · intro n2
        rw [hadj n2]
        by_cases h1 : n = n2
        · rw [if_pos h1]
          exact nodup_setAdd _ _ (ih.adj_nodup n)
        · rw [if_neg h1]
          exact ih.adj_nodup n2
      · intro n2
        rw [hradj n2]
        by_cases h1 : d = n2
        · rw [if_pos h1]
          exact nodup_setAdd _ _ (ih.radj_nodup d)
        · rw [if_neg h1]
          exact ih.radj_nodup n2
      · intro n2 d2
        rw [hadj n2, hradj d2]
        by_cases h1 : n = n2
        · subst h1
          rw [if_pos rfl]
          by_cases h2 : d = d2
          · subst h2
            rw [if_pos rfl]
            exact iff_of_true ((mem_setAdd _ _ _).2 (Or.inr rfl))
              ((mem_setAdd _ _ _).2 (Or.inr rfl))
          · rw [if_neg h2]
            constructor
            · intro hl
              rcases (mem_setAdd _ _ _).1 hl with hold | rfl
              · exact (ih.rev_iff n d2).1 hold
              · exact absurd rfl h2
            · intro hr
              exact (mem_setAdd _ _ _).2 (Or.inl ((ih.rev_iff n d2).2 hr))
        · rw [if_neg h1]
          by_cases h2 : d = d2
          · subst h2
            rw [if_pos rfl]
            constructor
            · intro hl
              exact (mem_setAdd _ _ _).2 (Or.inl ((ih.rev_iff n2 d).1 hl))
            · intro hr
              rcases (mem_setAdd _ _ _).1 hr with hold | rfl
              · exact (ih.rev_iff n2 d).2 hold
              · exact absurd rfl h1
          · rw [if_neg h2]
            exact ih.rev_iff n2 d2
      · intro n2 d2 hd2 hr
        rcases reaches_decompose hok hr with hr1 | ⟨hr1, hr2⟩
        · rw [hadj n2] at hd2
          by_cases h1 : n = n2
          · subst h1
            rw [if_pos rfl] at hd2
            rcases (mem_setAdd _ _ _).1 hd2 with hold | rfl
            · exact ih.acyclic n d2 hold hr1
            · exact hnr hr1
          · rw [if_neg h1] at hd2
            exact ih.acyclic n2 d2 hd2 hr1
        · rw [hadj n2] at hd2
          by_cases h1 : n = n2
          · subst h1
            exact hnr hr2
          · rw [if_neg h1] at hd2
            exact hnr (hr2.trans ((ReachesL.step hd2
              (ReachesL.refl d2)).trans hr1))



theorem no_self_feeding {g : DependencyGraph} (hg : GInv g)
    (S : List String)
    (hfeed : ∀ x ∈ S, ∃ d2, d2 ∈ adjOf g.graph x ∧ d2 ∈ S) : S = [] := by
  classical
  by_contra hne
  obtain ⟨x0, hx0⟩ := List.exists_mem_of_ne_nil S hne
  let f : Nat → {x // x ∈ S} := fun k => Nat.rec ⟨x0, hx0⟩
    (fun _ prev => ⟨Classical.choose (hfeed prev.1 prev.2),
      (Classical.choose_spec (hfeed prev.1 prev.2)).2⟩) k
  have hstep : ∀ k, (f (k + 1)).1 ∈ adjOf g.graph (f k).1 := by
    intro k
    exact (Classical.choose_spec (hfeed (f k).1 (f k).2)).1
  have hreach : ∀ i j, ReachesL g.graph (f i).1 (f (i + j)).1 := by
    intro i j
    induction j with
    | zero => exact ReachesL.refl _
    | succ j2 ih =>
        exact ih.trans (ReachesL.step (hstep (i + j2)) (ReachesL.refl _))
  have hcontra : ∀ a b : Nat, a < b → (f a).1 = (f b).1 → False := by
    intro a b hab heq2
    have hidx : (a + 1) + (b - (a + 1)) = b := by omega
    have hr := hreach (a + 1) (b - (a + 1))
    rw [hidx] at hr
    rw [← heq2] at hr
    exact hg.acyclic (f a).1 (f (a + 1)).1 (hstep a) hr
  have hcard : (S.toFinset).card <
      (Finset.univ : Finset (Fin (S.length + 1))).card := by
    rw [Finset.card_univ, Fintype.card_fin]
    exact Nat.lt_succ_of_le (List.toFinset_card_le S)
  obtain ⟨i, _, j, _, hne2, heq⟩ :=
    Finset.exists_ne_map_eq_of_card_lt_of_maps_to hcard
      (fun (i2 : Fin (S.length + 1)) _ => List.mem_toFinset.2 (f i2.1).2)
  have hvne : i.1 ≠ j.1 := fun hv => hne2 (Fin.ext hv)
  rcases Nat.lt_or_ge i.1 j.1 with hlt | hge
  · exact hcontra i.1 j.1 hlt heq
  · exact hcontra j.1 i.1 (lt_of_le_of_ne hge (fun hv => hvne hv.symm))
      heq.symm

theorem indexOf_append_left {l : List String} (t : List String) {z : String}
    (hz : z ∈ l) : (l ++ t).indexOf z = l.indexOf z := by
  induction l with
  | nil => cases hz
  | cons a l2 ih =>
      by_cases haz : a = z
      · subst haz
        simp [List.indexOf_cons_self]
      · have hz2 : z ∈ l2 := by
          rcases List.mem_cons.1 hz with h2 | h2
          · exact absurd h2.symm haz
          · exact h2
        have hne : a ≠ z := haz
        show ((a :: (l2 ++ t)).indexOf z) = (a :: l2).indexOf z
        rw [List.indexOf_cons_ne _ hne, List.indexOf_cons_ne _ hne, ih hz2]

theorem indexOf_append_right {l : List String} (t : List String) {z : String}
    (hz : z ∉ l) : (l ++ t).indexOf z = l.length + t.indexOf z := by
  induction l with
  | nil => simp
  | cons a l2 ih =>
      have hne : a ≠ z := fun h2 => hz (h2 ▸ List.mem_cons_self a l2)
      have hz2 : z ∉ l2 := fun h2 => hz (List.mem_cons.2 (Or.inr h2))
      show ((a :: (l2 ++ t)).indexOf z) = (a :: l2).length + t.indexOf z
      rw [List.indexOf_cons_ne _ hne, ih hz2, List.length_cons]
      omega

theorem length_filter_le_of_imp (l : List String) (p q : String → Bool)
    (h : ∀ x ∈ l, p x = true → q x = true) :
    (l.filter p).length ≤ (l.filter q).length := by
  induction l with
  | nil => exact Nat.le_refl 0
  | cons a l2 ih =>
      have ih2 := ih (fun x hx => h x (List.mem_cons.2 (Or.inr hx)))
      by_cases hp : p a = true
      · rw [List.filter_cons_of_pos hp,
          List.filter_cons_of_pos (h a (List.mem_cons_self a l2) hp)]
        exact Nat.succ_le_succ ih2
      · rw [List.filter_cons_of_neg (by simpa using hp)]
        by_cases hq : q a = true
        · rw [List.filter_cons_of_pos hq]
          exact Nat.le_succ_of_le ih2
        · rw [List.filter_cons_of_neg (by simpa using hq)]
          exact ih2

theorem length_filter_or_disjoint (l : List String) (p q : String → Bool)
    (hdis : ∀ x ∈ l, p x = true → q x = false) :
    (l.filter (fun x => p x || q x)).length =
      (l.filter p).length + (l.filter q).length := by
  induction l with
  | nil => rfl
  | cons a l2 ih =>
      have ih2 := ih (fun x hx => hdis x (List.mem_cons.2 (Or.inr hx)))
      by_cases hp : p a = true
      · have hq : q a = false := hdis a (List.mem_cons_self a l2) hp
        rw [List.filter_cons_of_pos (by simp [hp]),
          List.filter_cons_of_pos hp,
          List.filter_cons_of_neg (by simp [hq])]
        simp only [List.length_cons]
        omega
      · have hp2 : p a = false := by simpa using hp
        by_cases hq : q a = true
        · rw [List.filter_cons_of_pos (by simp [hq]),
            List.filter_cons_of_neg (by simp [hp2]),
            List.filter_cons_of_pos hq]
          simp only [List.length_cons]
          omega
        · have hq2 : q a = false := by simpa using hq
          rw [List.filter_cons_of_neg (by simp [hp2, hq2]),
            List.filter_cons_of_neg (by simp [hp2]),
            List.filter_cons_of_neg (by simp [hq2])]
          exact ih2

theorem length_filter_mem_eq (l s : List String) (hl : l.Nodup)
    (hs : s.Nodup) (hsub : ∀ x ∈ s, x ∈ l) :
    (l.filter (fun x => decide (x ∈ s))).length = s.length := by
  apply Nat.le_antisymm
  · apply List.Subperm.length_le
    apply (hl.filter _).subperm
    intro x hx
    exact of_decide_eq_true (List.mem_filter.1 hx).2
  · apply List.Subperm.length_le
    apply hs.subperm
    intro x hx
    exact List.mem_filter.2 ⟨hsub x hx, decide_eq_true hx⟩

theorem length_filter_erase_one {l : List String} {c : String} (hl : l.Nodup)
    (res : List String) (hc : c ∈ l) (hcres : c ∉ res) :
    (l.filter (fun x => decide (x ∉ res))).length =
      (l.filter (fun x => decide (x ∉ res ++ [c]))).length + 1 := by
  induction l with
  | nil => cases hc
  | cons a l2 ih =>
      have hnd2 : l2.Nodup := (List.nodup_cons.1 hl).2
      have hand : a ∉ l2 := (List.nodup_cons.1 hl).1
      by_cases hac : a = c
      · subst hac
        have hc2 : ∀ x ∈ l2, (decide (x ∉ res ++ [a]) : Bool) =
            decide (x ∉ res) := by
          intro x hx
          have hxa : x ≠ a := fun h2 => hand (h2 ▸ hx)
          apply decide_eq_decide.2
          simp [List.mem_append, hxa]
        simp only [List.filter_cons, decide_eq_true_eq]
        rw [if_pos hcres,
          if_neg (not_not_intro (List.mem_append_right res
            (List.mem_singleton_self a))),
          List.filter_congr hc2]
        rfl
      · have hc2 : c ∈ l2 := by
          rcases List.mem_cons.1 hc with h2 | h2
          · exact absurd h2.symm hac
          · exact h2
        simp only [List.filter_cons, decide_eq_true_eq]
        by_cases har : a ∈ res
        · rw [if_neg (not_not_intro har),
            if_neg (not_not_intro (List.mem_append_left [c] har))]
          exact ih hnd2 hc2
        · have haR : a ∉ res ++ [c] := by
            simp [List.mem_append, har, hac]
          rw [if_pos har, if_pos haR]
          simp only [List.length_cons]
          rw [ih hnd2 hc2]

theorem filter_append_singleton_congr {L : List String} (res : List String)
    {c : String} (hc : c ∉ L) :
    L.filter (fun d2 => decide (d2 ∉ res ++ [c])) =
      L.filter (fun d2 => decide (d2 ∉ res)) := by
  apply List.filter_congr
  intro x hx
  have hxc : x ≠ c := fun h2 => hc (h2 ▸ hx)
  apply decide_eq_decide.2
  simp [List.mem_append, hxc]

theorem alookup_map_self {β : Type} (l : List String) (fn : String → β)
    (x : String) (hx : x ∈ l) :
    alookup (l.map (fun n2 => (n2, fn n2))) x = some (fn x) := by
  induction l with
  | nil => cases hx
  | cons a l2 ih =>
      show alookup ((a, fn a) :: l2.map (fun n2 => (n2, fn n2))) x = _
      rw [alookup_cons]
      by_cases hax : a = x
      · rw [if_pos hax, hax]
      · rw [if_neg hax]
        rcases List.mem_cons.1 hx with h2 | h2
        · exact absurd h2.symm hax
        · exact ih h2

theorem kahnFold_spec (dlist : List String) (hnodup : dlist.Nodup)
    (cnt : List (String × Int)) :
    (∀ y, y ∉ dlist → alookup (kahnFold cnt dlist).1 y = alookup cnt y) ∧
    (∀ y ∈ dlist, alookup (kahnFold cnt dlist).1 y =
      (alookup cnt y).map (fun v => v - 1)) ∧
    (∀ y, y ∈ (kahnFold cnt dlist).2 ↔
      y ∈ dlist ∧ alookup cnt y = some 1) ∧
    (kahnFold cnt dlist).2.Nodup := by
  induction dlist generalizing cnt with
  | nil =>
      refine ⟨fun y _ => rfl, fun y hy => absurd hy (List.not_mem_nil y),
        ?_, List.nodup_nil⟩
      intro y
      exact ⟨fun h2 => absurd h2 (List.not_mem_nil y),
        fun h2 => absurd h2.1 (List.not_mem_nil y)⟩
  | cons y rest ih =>
      have hyrest : y ∉ rest := (List.nodup_cons.1 hnodup).1
      have hrest : rest.Nodup := (List.nodup_cons.1 hnodup).2
      obtain ⟨ih1, ih2, ih3, ih4⟩ := ih hrest (aupdate cnt y (fun v => v - 1))
      have hunf : kahnFold cnt (y :: rest) =
          ((kahnFold (aupdate cnt y (fun v => v - 1)) rest).1,
            (if (alookup (aupdate cnt y (fun v => v - 1)) y).getD 1 = 0
              then [y] else []) ++
            (kahnFold (aupdate cnt y (fun v => v - 1)) rest).2) := rfl
      have hhit : ((alookup (aupdate cnt y (fun v => v - 1)) y).getD 1 = 0) ↔
          alookup cnt y = some 1 := by
        rw [alookup_aupdate_self]
        cases halk : alookup cnt y with
        | none => simp
        | some v =>
            simp only [Option.map_some', Option.getD_some, Option.some.injEq]
            omega
      refine ⟨?_, ?_, ?_, ?_⟩
      · intro z hz
        have hzy : y ≠ z := fun h2 => hz (h2 ▸ List.mem_cons_self y rest)
        have hzr : z ∉ rest := fun h2 => hz (List.mem_cons.2 (Or.inr h2))
        rw [hunf]
        show alookup (kahnFold (aupdate cnt y (fun v => v - 1)) rest).1 z = _
        rw [ih1 z hzr, alookup_aupdate_ne cnt y z _ hzy]
      · intro z hz
        rw [hunf]
        show alookup (kahnFold (aupdate cnt y (fun v => v - 1)) rest).1 z = _
        rcases List.mem_cons.1 hz with rfl | hz2
        · rw [ih1 z hyrest, alookup_aupdate_self]
        · have hzy : y ≠ z := fun h2 => hyrest (h2 ▸ hz2)
          rw [ih2 z hz2, alookup_aupdate_ne cnt y z _ hzy]
      · intro z
        rw [hunf]
        show z ∈ (if _ then [y] else []) ++ _ ↔ _
        rw [List.mem_append]
        constructor
        · rintro (hz | hz)
          · by_cases hh : alookup cnt y = some 1
            · rw [if_pos (hhit.2 hh)] at hz
              rcases List.mem_singleton.1 hz with rfl
              exact ⟨List.mem_cons_self z rest, hh⟩
            · rw [if_neg (fun hc => hh (hhit.1 hc))] at hz
              cases hz
          · obtain ⟨hz1, hz2⟩ := (ih3 z).1 hz
            have hzy : y ≠ z := fun h2 => hyrest (h2 ▸ hz1)
            rw [alookup_aupdate_ne cnt y z _ hzy] at hz2
            exact ⟨List.mem_cons.2 (Or.inr hz1), hz2⟩
        · rintro ⟨hz1, hz2⟩
          rcases List.mem_cons.1 hz1 with rfl | hz3
          · refine Or.inl ?_
            rw [if_pos (hhit.2 hz2)]
            exact List.mem_singleton_self z
          · refine Or.inr ((ih3 z).2 ⟨hz3, ?_⟩)
            have hzy : y ≠ z := fun h2 => hyrest (h2 ▸ hz3)
            rw [alookup_aupdate_ne cnt y z _ hzy]
            exact hz2
      · rw [hunf]
        show ((if _ then [y] else []) ++ _).Nodup
        by_cases hh : (alookup (aupdate cnt y (fun v => v - 1)) y).getD 1 = 0
        · rw [if_pos hh]
          show (y :: (kahnFold _ rest).2).Nodup
          rw [List.nodup_cons]
          refine ⟨fun hy2 => ?_, ih4⟩
          exact hyrest ((ih3 y).1 hy2).1
        · rw [if_neg hh]
          exact ih4



theorem kahn_complete_of_covered {g : DependencyGraph} (hg : GInv g)
    (res : List String)
    (hcov : ∀ x ∈ g.nodes, x ∉ res → ∃ d2 ∈ adjOf g.graph x, d2 ∉ res) :
    ∀ x ∈ g.nodes, x ∈ res := by
  intro x hx
  by_contra hxres
  have hfeed : ∀ z ∈ g.nodes.filter (fun z2 => decide (z2 ∉ res)),
      ∃ d2, d2 ∈ adjOf g.graph z ∧
        d2 ∈ g.nodes.filter (fun z2 => decide (z2 ∉ res)) := by
    intro z hz
    have hz1 : z ∈ g.nodes := (List.mem_filter.1 hz).1
    have hz2 : z ∉ res := of_decide_eq_true (List.mem_filter.1 hz).2
    obtain ⟨d2, hd2, hd2r⟩ := hcov z hz1 hz2
    exact ⟨d2, hd2, List.mem_filter.2 ⟨(hg.edges_in_nodes z d2 hd2).2,
      decide_eq_true hd2r⟩⟩
  have hS := no_self_feeding hg (g.nodes.filter (fun z2 => decide (z2 ∉ res)))
    hfeed
  have hxf : x ∈ g.nodes.filter (fun z2 => decide (z2 ∉ res)) :=
    List.mem_filter.2 ⟨hx, decide_eq_true hxres⟩
  rw [hS] at hxf
  cases hxf

theorem kahnLoop_spec {g : DependencyGraph} (hg : GInv g) :
    ∀ (fuel : Nat) (cnt : List (String × Int)) (queue res : List String),
    (∀ x ∈ res, x ∈ g.nodes) →
    (∀ x ∈ queue, x ∈ g.nodes) →
    (res ++ queue).Nodup →
    (∀ x d2, x ∈ res → d2 ∈ adjOf g.graph x →
      d2 ∈ res ∧ res.indexOf d2 < res.indexOf x) →
    (∀ x ∈ queue, ∀ d2 ∈ adjOf g.graph x, d2 ∈ res) →
    (∀ x ∈ g.nodes, alookup cnt x =
      some (((adjOf g.graph x).filter
        (fun d2 => decide (d2 ∉ res))).length : Int)) →
    (∀ x ∈ g.nodes, x ∉ res → x ∉ queue →
      ∃ d2 ∈ adjOf g.graph x, d2 ∉ res) →
    queue.length + (g.nodes.filter
      (fun x => decide (x ∉ res) && decide (x ∉ queue))).length ≤ fuel →
    (∀ x ∈ g.nodes, x ∈ kahnLoop g fuel cnt queue res) ∧
    (∀ x ∈ kahnLoop g fuel cnt queue res, x ∈ g.nodes) ∧
    (kahnLoop g fuel cnt queue res).Nodup ∧
    (∀ x d2, x ∈ kahnLoop g fuel cnt queue res → d2 ∈ adjOf g.graph x →
      d2 ∈ kahnLoop g fuel cnt queue res ∧
      (kahnLoop g fuel cnt queue res).indexOf d2 <
        (kahnLoop g fuel cnt queue res).indexOf x) := by
  intro fuel
  induction fuel with
  | zero =>
      intro cnt queue res hres hqsub hnd hord hqdone hcnt hcov hm
      have hq0 : queue.length = 0 := by omega
      have hq : queue = [] := List.length_eq_zero.1 hq0
      subst hq
      have hout : kahnLoop g 0 cnt [] res = res := rfl
      rw [hout]
      refine ⟨?_, hres, by simpa using hnd, hord⟩
      exact kahn_complete_of_covered hg res
        (fun x hx hxr => hcov x hx hxr (List.not_mem_nil x))
  | succ fuel ih =>
      intro cnt queue res hres hqsub hnd hord hqdone hcnt hcov hm
      cases queue with
      | nil =>
          have hout : kahnLoop g (fuel + 1) cnt [] res = res := rfl
          rw [hout]
          refine ⟨?_, hres, by simpa using hnd, hord⟩
          exact kahn_complete_of_covered hg res
            (fun x hx hxr => hcov x hx hxr (List.not_mem_nil x))
      | cons c qrest =>
          have hunf : kahnLoop g (fuel + 1) cnt (c :: qrest) res =
              kahnLoop g fuel (kahnFold cnt (radjOf g c)).1
                (qrest ++ (kahnFold cnt (radjOf g c)).2) (res ++ [c]) := rfl
          obtain ⟨hf1, hf2, hf3, hf4⟩ :=
            kahnFold_spec (radjOf g c) (hg.radj_nodup c) cnt
          have hcnodes : c ∈ g.nodes := hqsub c (List.mem_cons_self c qrest)
          have hresnd : res.Nodup := (List.nodup_append.1 hnd).1
          have hqnd : (c :: qrest).Nodup := (List.nodup_append.1 hnd).2.1
          have hdisj : res.Disjoint (c :: qrest) :=
            (List.nodup_append.1 hnd).2.2
          have hcres : c ∉ res :=
            fun h2 => hdisj h2 (List.mem_cons_self c qrest)
          have hcq : c ∉ qrest := (List.nodup_cons.1 hqnd).1
          have hdone : ∀ x ∈ g.nodes,
              (∀ d2 ∈ adjOf g.graph x, d2 ∈ res) →
              alookup cnt x = some 0 := by
            intro x hx hall
            rw [hcnt x hx]
            have hfe : (adjOf g.graph x).filter
                (fun d2 => decide (d2 ∉ res)) = [] := by
              rw [List.filter_eq_nil]
              intro a ha
              simp [hall a ha]
            rw [hfe]
            rfl
          have hresdone : ∀ x ∈ res, ∀ d2 ∈ adjOf g.graph x, d2 ∈ res :=
            fun x hx d2 hd2 => (hord x d2 hx hd2).1
          have happ : ∀ y ∈ (kahnFold cnt (radjOf g c)).2,
              y ∈ g.nodes ∧ y ∉ res ∧ y ≠ c ∧ y ∉ qrest ∧
              alookup cnt y = some 1 ∧ c ∈ adjOf g.graph y := by
            intro y hy
            obtain ⟨hyr, hy1⟩ := (hf3 y).1 hy
            have hyc : c ∈ adjOf g.graph y := (hg.rev_iff y c).2 hyr
            have hyn : y ∈ g.nodes := (hg.edges_in_nodes y c hyc).1
            have hyres : y ∉ res := by
              intro hcon
              have h01 := (hdone y hyn (hresdone y hcon)).symm.trans hy1
              exact absurd h01 (by decide)
            have hync : y ≠ c := by
              intro hcon
              subst hcon
              have h01 := (hdone y hyn
                (hqdone y (List.mem_cons_self y qrest))).symm.trans hy1
              exact absurd h01 (by decide)
            have hynq : y ∉ qrest := by
              intro hcon
              have h01 := (hdone y hyn
                (hqdone y (List.mem_cons.2 (Or.inr hcon)))).symm.trans hy1
              exact absurd h01 (by decide)
            exact ⟨hyn, hyres, hync, hynq, hy1, hyc⟩
          have hres2 : ∀ x ∈ res ++ [c], x ∈ g.nodes := by
            intro x hx
            rcases List.mem_append.1 hx with h2 | h2
            · exact hres x h2
            · rw [List.mem_singleton.1 h2]
              exact hcnodes
          have hqsub2 : ∀ x ∈ qrest ++ (kahnFold cnt (radjOf g c)).2,
              x ∈ g.nodes := by
            intro x hx
            rcases List.mem_append.1 hx with h2 | h2
            · exact hqsub x (List.mem_cons.2 (Or.inr h2))
            · exact (happ x h2).1
          have hnd2 : ((res ++ [c]) ++
              (qrest ++ (kahnFold cnt (radjOf g c)).2)).Nodup := by
            rw [← List.append_assoc, List.nodup_append]
            refine ⟨?_, hf4, ?_⟩
            · have he : (res ++ [c]) ++ qrest = res ++ c :: qrest := by simp
              rw [he]
              exact hnd
            · intro y hyL hyA
              obtain ⟨_, hyres, hyc, hyq, _, _⟩ := happ y hyA
              rcases List.mem_append.1 hyL with h2 | h2
              · rcases List.mem_append.1 h2 with h3 | h3
                · exact hyres h3
                · exact hyc (List.mem_singleton.1 h3)
              · exact hyq h2
          have hord2 : ∀ x d2, x ∈ res ++ [c] → d2 ∈ adjOf g.graph x →
              d2 ∈ res ++ [c] ∧
              (res ++ [c]).indexOf d2 < (res ++ [c]).indexOf x := by
            intro x d2 hx hd2
            rcases List.mem_append.1 hx with h2 | h2
            · obtain ⟨hd2res, hlt⟩ := hord x d2 h2 hd2
              refine ⟨List.mem_append_left _ hd2res, ?_⟩
              rw [indexOf_append_left [c] hd2res, indexOf_append_left [c] h2]
              exact hlt
            · have hxc : x = c := List.mem_singleton.1 h2
              subst hxc
              have hd2res : d2 ∈ res :=
                hqdone x (List.mem_cons_self x qrest) d2 hd2
              refine ⟨List.mem_append_left _ hd2res, ?_⟩
              rw [indexOf_append_left [x] hd2res,
                indexOf_append_right [x] hcres,
                List.indexOf_cons_self x []]
              have hlt2 : res.indexOf d2 < res.length :=
                List.indexOf_lt_length.2 hd2res
              omega
          have hqdone2 : ∀ x ∈ qrest ++ (kahnFold cnt (radjOf g c)).2,
              ∀ d2 ∈ adjOf g.graph x, d2 ∈ res ++ [c] := by
            intro x hx d2 hd2
            rcases List.mem_append.1 hx with h2 | h2
            · exact List.mem_append_left _
                (hqdone x (List.mem_cons.2 (Or.inr h2)) d2 hd2)
            · obtain ⟨hxn, hxres, _, _, hx1, hcadj⟩ := happ x h2
              by_cases hd2res : d2 ∈ res
              · exact List.mem_append_left _ hd2res
              · have heq := (hcnt x hxn).symm.trans hx1
                have hval := Option.some_injective _ heq
                have hlen1 : ((adjOf g.graph x).filter
                    (fun z => decide (z ∉ res))).length = 1 := by omega
                obtain ⟨a0, ha0⟩ := List.length_eq_one.1 hlen1
                have hcf : c ∈ (adjOf g.graph x).filter
                    (fun z => decide (z ∉ res)) :=
                  List.mem_filter.2 ⟨hcadj, decide_eq_true hcres⟩
                have hdf : d2 ∈ (adjOf g.graph x).filter
                    (fun z => decide (z ∉ res)) :=
                  List.mem_filter.2 ⟨hd2, decide_eq_true hd2res⟩
                rw [ha0] at hcf hdf
                have hdc : d2 = c :=
                  (List.mem_singleton.1 hdf).trans
                    (List.mem_singleton.1 hcf).symm
                rw [hdc]
                exact List.mem_append_right _ (List.mem_singleton_self c)
          have hcnt2 : ∀ x ∈ g.nodes,
              alookup (kahnFold cnt (radjOf g c)).1 x =
              some (((adjOf g.graph x).filter
                (fun d2 => decide (d2 ∉ res ++ [c]))).length : Int) := by
            intro x hx
            by_cases hxr : x ∈ radjOf g c
            · have hcadj : c ∈ adjOf g.graph x := (hg.rev_iff x c).2 hxr
              rw [hf2 x hxr, hcnt x hx, Option.map_some']
              have hlen := length_filter_erase_one (hg.adj_nodup x) res
                hcadj hcres
              exact congrArg some (by omega)
            · have hcnadj : c ∉ adjOf g.graph x :=
                fun hcon => hxr ((hg.rev_iff x c).1 hcon)
              rw [hf1 x hxr, hcnt x hx,
                filter_append_singleton_congr res hcnadj]
          have hcov2 : ∀ x ∈ g.nodes, x ∉ res ++ [c] →
              x ∉ qrest ++ (kahnFold cnt (radjOf g c)).2 →
              ∃ d2 ∈ adjOf g.graph x, d2 ∉ res ++ [c] := by
            intro x hx hxr2 hxq2
            have hxres : x ∉ res := fun h2 => hxr2 (List.mem_append_left _ h2)
            have hxc : x ≠ c := fun h2 => hxr2 (List.mem_append_right _
              (h2 ▸ List.mem_singleton_self c))
            have hxqrest : x ∉ qrest :=
              fun h2 => hxq2 (List.mem_append_left _ h2)
            have hxapp : x ∉ (kahnFold cnt (radjOf g c)).2 :=
              fun h2 => hxq2 (List.mem_append_right _ h2)
            have hxq : x ∉ c :: qrest := by
              intro h2
              rcases List.mem_cons.1 h2 with h3 | h3
              · exact hxc h3
              · exact hxqrest h3
            obtain ⟨d2, hd2, hd2res⟩ := hcov x hx hxres hxq
            by_cases hall : ∀ e ∈ adjOf g.graph x, e ∉ res → e = c
            · exfalso
              have hdc : d2 = c := hall d2 hd2 hd2res
              have hcadj : c ∈ adjOf g.graph x := hdc ▸ hd2
              have hxradj : x ∈ radjOf g c := (hg.rev_iff x c).1 hcadj
              have hsub : (adjOf g.graph x).filter
                  (fun z => decide (z ∉ res)) ⊆ [c] := by
                intro e he
                have he1 := (List.mem_filter.1 he).1
                have he2 := of_decide_eq_true (List.mem_filter.1 he).2
                rw [hall e he1 he2]
                exact List.mem_singleton_self c
              have hcf : c ∈ (adjOf g.graph x).filter
                  (fun z => decide (z ∉ res)) :=
                List.mem_filter.2 ⟨hcadj, decide_eq_true hcres⟩
              have hlen_le : ((adjOf g.graph x).filter
                  (fun z => decide (z ∉ res))).length ≤ 1 :=
                (((hg.adj_nodup x).filter _).subperm hsub).length_le
              have hlen_ge : 0 < ((adjOf g.graph x).filter
                  (fun z => decide (z ∉ res))).length :=
                List.length_pos_of_mem hcf
              have hlen1 : ((adjOf g.graph x).filter
                  (fun z => decide (z ∉ res))).length = 1 := by omega
              have hx1 : alookup cnt x = some 1 := by
                rw [hcnt x hx, hlen1]
                rfl
              exact hxapp ((hf3 x).2 ⟨hxradj, hx1⟩)
            · push_neg at hall
              obtain ⟨e, he, he2, he3⟩ := hall
              refine ⟨e, he, ?_⟩
              intro hcon
              rcases List.mem_append.1 hcon with h4 | h4
              · exact he2 h4
              · exact he3 (List.mem_singleton.1 h4)
          have hdisj2 : ∀ x ∈ g.nodes,
              (decide (x ∉ res ++ [c]) &&
                decide (x ∉ qrest ++ (kahnFold cnt (radjOf g c)).2)) =
                true →
              (decide (x ∈ (kahnFold cnt (radjOf g c)).2) : Bool) =
                false := by
            intro x hx hP
            simp only [Bool.and_eq_true, decide_eq_true_eq] at hP
            exact decide_eq_false
              (fun hcon => hP.2 (List.mem_append_right _ hcon))
          have himp : ∀ x ∈ g.nodes,
              ((decide (x ∉ res ++ [c]) &&
                decide (x ∉ qrest ++ (kahnFold cnt (radjOf g c)).2)) ||
                decide (x ∈ (kahnFold cnt (radjOf g c)).2)) = true →
              (decide (x ∉ res) && decide (x ∉ c :: qrest)) = true := by
            intro x hx hPQ
            simp only [Bool.or_eq_true, Bool.and_eq_true,
              decide_eq_true_eq] at hPQ ⊢
            rcases hPQ with ⟨h1, h2⟩ | h3
            · constructor
              · exact fun hcon => h1 (List.mem_append_left _ hcon)
              · intro hcon
                rcases List.mem_cons.1 hcon with h4 | h4
                · exact h1 (List.mem_append_right _
                    (h4 ▸ List.mem_singleton_self c))
                · exact h2 (List.mem_append_left _ h4)
            · obtain ⟨_, hyres, hyc, hyq, _, _⟩ := happ x h3
              refine ⟨hyres, ?_⟩
              intro hcon
              rcases List.mem_cons.1 hcon with h4 | h4
              · exact hyc h4
              · exact hyq h4
          have hor := length_filter_or_disjoint g.nodes
            (fun x => decide (x ∉ res ++ [c]) &&
              decide (x ∉ qrest ++ (kahnFold cnt (radjOf g c)).2))
            (fun x => decide (x ∈ (kahnFold cnt (radjOf g c)).2)) hdisj2
          have hmem := length_filter_mem_eq g.nodes
            (kahnFold cnt (radjOf g c)).2 hg.nodes_nodup hf4
            (fun y hy => (happ y hy).1)
          have hmono := length_filter_le_of_imp g.nodes
            (fun x => (decide (x ∉ res ++ [c]) &&
              decide (x ∉ qrest ++ (kahnFold cnt (radjOf g c)).2)) ||
              decide (x ∈ (kahnFold cnt (radjOf g c)).2))
            (fun x => decide (x ∉ res) && decide (x ∉ c :: qrest)) himp
          rw [hor, hmem] at hmono
          have hold := hm
          simp only [List.length_cons] at hold
          have hm2 : (qrest ++ (kahnFold cnt (radjOf g c)).2).length +
              (g.nodes.filter (fun x => decide (x ∉ res ++ [c]) &&
                decide (x ∉ qrest ++
                  (kahnFold cnt (radjOf g c)).2))).length ≤ fuel := by
            rw [List.length_append]
            omega
          obtain ⟨c1, c2, c3, c4⟩ := ih (kahnFold cnt (radjOf g c)).1
            (qrest ++ (kahnFold cnt (radjOf g c)).2) (res ++ [c])
            hres2 hqsub2 hnd2 hord2 hqdone2 hcnt2 hcov2 hm2
          rw [hunf]
          exact ⟨c1, c2, c3, c4⟩



/-- C5: for every graph built only through successful `add_dependency` calls
(hence acyclic), `topological_sort` succeeds and returns a permutation of all
nodes in which, for every edge, the dependency appears strictly before the
dependent (`order.index(dependency) < order.index(dependent)`). -/
theorem topological_sort_correct {g : DependencyGraph}
    (hb : BuiltByAddDependency g) :
    ∃ order, topological_sort g = Except.ok order ∧ order.Perm g.nodes ∧
      ∀ n d2, d2 ∈ adjOf g.graph n →
        order.indexOf d2 < order.indexOf n := by
  have hg := built_ginv hb
  have hres0 : ∀ x ∈ ([] : List String), x ∈ g.nodes :=
    fun x hx => absurd hx (List.not_mem_nil x)
  have hqsub0 : ∀ x ∈ g.nodes.filter
      (fun n2 => (adjOf g.graph n2).length = 0), x ∈ g.nodes :=
    fun x hx => (List.mem_filter.1 hx).1
  have hnd0 : (([] : List String) ++ g.nodes.filter
      (fun n2 => (adjOf g.graph n2).length = 0)).Nodup := by
    rw [List.nil_append]
    exact hg.nodes_nodup.filter _
  have hord0 : ∀ x d2, x ∈ ([] : List String) → d2 ∈ adjOf g.graph x →
      d2 ∈ ([] : List String) ∧
      ([] : List String).indexOf d2 < ([] : List String).indexOf x :=
    fun x d2 hx _ => absurd hx (List.not_mem_nil x)
  have hqdone0 : ∀ x ∈ g.nodes.filter
      (fun n2 => (adjOf g.graph n2).length = 0),
      ∀ d2 ∈ adjOf g.graph x, d2 ∈ ([] : List String) := by
    intro x hx d2 hd2
    have h0 : (adjOf g.graph x).length = 0 :=
      of_decide_eq_true (List.mem_filter.1 hx).2
    rw [List.length_eq_zero.1 h0] at hd2
    cases hd2
  have hcnt0 : ∀ x ∈ g.nodes,
      alookup (g.nodes.map
        (fun n2 => (n2, ((adjOf g.graph n2).length : Int)))) x =
      some (((adjOf g.graph x).filter
        (fun d2 => decide (d2 ∉ ([] : List String)))).length : Int) := by
    intro x hx
    rw [alookup_map_self g.nodes _ x hx]
    have hfeq : (adjOf g.graph x).filter
        (fun d2 => decide (d2 ∉ ([] : List String))) = adjOf g.graph x :=
      List.filter_eq_self.2 (fun a _ => decide_eq_true (List.not_mem_nil a))
    rw [hfeq]
  have hcov0 : ∀ x ∈ g.nodes, x ∉ ([] : List String) →
      x ∉ g.nodes.filter (fun n2 => (adjOf g.graph n2).length = 0) →
      ∃ d2 ∈ adjOf g.graph x, d2 ∉ ([] : List String) := by
    intro x hx _ hxq
    have hne : (adjOf g.graph x).length ≠ 0 :=
      fun h0 => hxq (List.mem_filter.2 ⟨hx, decide_eq_true h0⟩)
    obtain ⟨d2, hd2⟩ := List.exists_mem_of_ne_nil (adjOf g.graph x)
      (fun he => hne (by rw [he]; rfl))
    exact ⟨d2, hd2, List.not_mem_nil d2⟩
  have hm0 : (g.nodes.filter
      (fun n2 => (adjOf g.graph n2).length = 0)).length +
      (g.nodes.filter (fun x => decide (x ∉ ([] : List String)) &&
        decide (x ∉ g.nodes.filter
          (fun n2 => (adjOf g.graph n2).length = 0)))).length ≤
      2 * g.nodes.length + 1 := by
    have h1 := List.length_filter_le
      (fun n2 => decide ((adjOf g.graph n2).length = 0)) g.nodes
    have h2 := List.length_filter_le
      (fun x => decide (x ∉ ([] : List String)) &&
        decide (x ∉ g.nodes.filter
          (fun n2 => (adjOf g.graph n2).length = 0))) g.nodes
    omega
  obtain ⟨hcomp, hsub, hnodup2, hord9⟩ := kahnLoop_spec hg
    (2 * g.nodes.length + 1)
    (g.nodes.map (fun n2 => (n2, ((adjOf g.graph n2).length : Int))))
    (g.nodes.filter (fun n2 => (adjOf g.graph n2).length = 0)) []
    hres0 hqsub0 hnd0 hord0 hqdone0 hcnt0 hcov0 hm0
  have hperm : (kahnLoop g (2 * g.nodes.length + 1)
      (g.nodes.map (fun n2 => (n2, ((adjOf g.graph n2).length : Int))))
      (g.nodes.filter (fun n2 => (adjOf g.graph n2).length = 0))
      []).Perm g.nodes :=
    List.Subperm.antisymm (hnodup2.subperm (fun x hx => hsub x hx))
      (hg.nodes_nodup.subperm (fun x hx => hcomp x hx))
  have hlen : (kahnLoop g (2 * g.nodes.length + 1)
      (g.nodes.map (fun n2 => (n2, ((adjOf g.graph n2).length : Int))))
      (g.nodes.filter (fun n2 => (adjOf g.graph n2).length = 0))
      []).length = g.nodes.length := hperm.length_eq
  refine ⟨kahnLoop g (2 * g.nodes.length + 1)
    (g.nodes.map (fun n2 => (n2, ((adjOf g.graph n2).length : Int))))
    (g.nodes.filter (fun n2 => (adjOf g.graph n2).length = 0)) [],
    ?_, hperm, ?_⟩
  · show (if (kahnLoop g (2 * g.nodes.length + 1)
        (g.nodes.map (fun n2 => (n2, ((adjOf g.graph n2).length : Int))))
        (g.nodes.filter (fun n2 => (adjOf g.graph n2).length = 0))
        []).length = g.nodes.length
      then Except.ok (kahnLoop g (2 * g.nodes.length + 1)
        (g.nodes.map (fun n2 => (n2, ((adjOf g.graph n2).length : Int))))
        (g.nodes.filter (fun n2 => (adjOf g.graph n2).length = 0)) [])
      else Except.error "Graph contains a cycle") = _
    rw [if_pos hlen]
  · intro n d2 hd2
    have hnin : n ∈ g.nodes := (hg.edges_in_nodes n d2 hd2).1
    exact (hord9 n d2 (hcomp n hnin) hd2).2

theorem topological_sort_correct_witness :
    ∃ order,
      topological_sort (add_dependency (add_dependency emptyGraph "b" "a").2
        "c" "b").2 = Except.ok order ∧
      order.Perm (add_dependency (add_dependency emptyGraph "b" "a").2
        "c" "b").2.nodes ∧
      ∀ n d2, d2 ∈ adjOf (add_dependency
        (add_dependency emptyGraph "b" "a").2 "c" "b").2.graph n →
        order.indexOf d2 < order.indexOf n := by
  have h1 : add_dependency emptyGraph "b" "a" =
      (none, (add_dependency emptyGraph "b" "a").2) := rfl
  have h2 : add_dependency (add_dependency emptyGraph "b" "a").2 "c" "b" =
      (none,
        (add_dependency (add_dependency emptyGraph "b" "a").2 "c" "b").2) :=
    rfl
  exact topological_sort_correct
    (BuiltByAddDependency.step
      (BuiltByAddDependency.step BuiltByAddDependency.empty h1) h2)

end MAS


